import Mathlib

/-!
# Verification of the Wataru-To rule engine and MCTS AI

Shallow embedding of the two-layer connection game implemented in
`backend/game/board.py`, `backend/game/move.py`, `backend/game/game.py`
and of the search engine in `backend/ai/mcts.py`, together with proofs
settling the specification claims about them.

Conventions of the embedding:
* Python ints are `Int` (board coordinates may be negative in invalid
  moves, which the validator bounds-checks, so `Int` is used throughout).
* The board grid `board[row][col] = [layer1, layer2]` is a
  `List (List Cell)` with `Cell := Int × Int`.
* `Move.timestamp` is not modelled: the source never reads it except for
  display, and move identity in the spec is path/player/size.
* Error strings returned beside booleans are not modelled; a validator
  returns `Bool` where the source returns `(bool, str)`.
-/

namespace WataruTo

/-- A board position, `move.py` `Position`: `(row, col, layer)`. -/
structure Position where
  row : Int
  col : Int
  layer : Int
  deriving DecidableEq, Repr

/-- A move, `move.py` `Move`: a player and the path of positions placed.
(The `timestamp` field carries no game semantics and is not modelled.) -/
structure Move where
  player : Int
  path : List Position
  deriving DecidableEq, Repr

namespace Move

/-- `Move.block_size`. -/
def block_size (m : Move) : Nat := m.path.length

/-- `Move.is_bridge_mode`: the (unsorted) first path element has layer 1. -/
def is_bridge_mode (m : Move) : Bool := (m.path.headD ⟨0, 0, 0⟩).layer = 1

/-- `Move.end_position`: the (unsorted) last path element. -/
def end_position (m : Move) : Position := m.path.getLastD ⟨0, 0, 0⟩

end Move

/-!
## Python's stable sort

`move.py` sorts paths with `sorted(path, key=...)`.  Python's sort is
stable; we model it by stable insertion sort on an `Int`-valued key.
-/

/-- Insert `x` into a list sorted by `key`, before any element of equal
key (this makes head-first insertion sort stable, like Python's). -/
def insertKeyed (key : Position → Int) (x : Position) : List Position → List Position
  | [] => [x]
  | y :: ys => if key x ≤ key y then x :: y :: ys else y :: insertKeyed key x ys

/-- Stable insertion sort modelling Python's `sorted(·, key=...)`. -/
def pySortBy (key : Position → Int) : List Position → List Position
  | [] => []
  | x :: xs => insertKeyed key x (pySortBy key xs)

end WataruTo

namespace WataruTo

/-!
## Path validation (`move.py` `Move.validate_path`)
-/

/-- Head of a path (paths are non-empty for constructed `Move`s;
the default is never reached through validated paths). -/
def pathHead (l : List Position) : Position := l.headD ⟨0, 0, 0⟩

/-- `all(pos.row == path[0].row for pos in path)`. -/
def allSameRow (l : List Position) : Bool := l.all (fun p => p.row = (pathHead l).row)

/-- `all(pos.col == path[0].col for pos in path)`. -/
def allSameCol (l : List Position) : Bool := l.all (fun p => p.col = (pathHead l).col)

/-- The sorted path used by `validate_path` and `MoveValidator`:
by column when the path lies in one row, otherwise by row. -/
def sortedPath (l : List Position) : List Position :=
  if allSameRow l then pySortBy (fun p => p.col) l else pySortBy (fun p => p.row) l

/-- Unit-step contiguity of the sorted path under a coordinate key
(the `sorted_path[i+1] - sorted_path[i] == 1` loop). -/
def contiguousBy (key : Position → Int) : List Position → Bool
  | a :: b :: rest => (key b - key a = 1) && contiguousBy key (b :: rest)
  | _ => true

/-- `Move.validate_path`: length in [3,5], colinear, duplicate-free,
and contiguous after sorting. -/
def Move.validate_path (m : Move) : Bool :=
  if m.path.length < 3 ∨ 5 < m.path.length then false
  else if ¬ (allSameRow m.path ∨ allSameCol m.path) then false
  else if ¬ m.path.Nodup then false
  else if allSameRow m.path then contiguousBy (fun p => p.col) (pySortBy (fun p => p.col) m.path)
  else contiguousBy (fun p => p.row) (pySortBy (fun p => p.row) m.path)

/-!
## Board (`board.py`)
-/

/-- One grid cell `[layer1, layer2]`. -/
abbrev Cell := Int × Int

/-- The two-layer grid.  The source class keeps `size` beside the
`size × size` nested list; all `Board`s built by the code satisfy
`cells.length = size` with every row of length `size`. -/
structure Board where
  size : Nat
  cells : List (List Cell)
  deriving DecidableEq, Repr

namespace Board

/-- `Board.__init__` / `Board.reset`: an all-empty grid. -/
def empty (size : Nat) : Board :=
  ⟨size, List.replicate size (List.replicate size ((0 : Int), (0 : Int)))⟩

/-- `Board.is_valid_position`. -/
def is_valid_position (b : Board) (row col : Int) : Bool :=
  0 ≤ row ∧ row < (b.size : Int) ∧ 0 ≤ col ∧ col < (b.size : Int)

/-- `Board.get_cell` (guarded at every call site; out-of-range reads
default to an empty cell where the source would raise). -/
def get_cell (b : Board) (row col : Int) : Cell :=
  (b.cells.getD row.toNat []).getD col.toNat ((0 : Int), (0 : Int))

/-- `Board.set_cell`.  The source raises on a bad position, layer or
value; the model leaves the board unchanged there (no call on the
non-raising paths reaches that branch). -/
def set_cell (b : Board) (row col layer value : Int) : Board :=
  if b.is_valid_position row col ∧ (layer = 0 ∨ layer = 1) ∧
      (value = 0 ∨ value = 1 ∨ value = -1) then
    let rowList := b.cells.getD row.toNat []
    let c := rowList.getD col.toNat ((0 : Int), (0 : Int))
    let c' := if layer = 0 then (value, c.2) else (c.1, value)
    { b with cells := b.cells.set row.toNat (rowList.set col.toNat c') }
  else b

/-- `Board.has_player_color`: either layer of an in-range cell holds
the player's colour. -/
def has_player_color (b : Board) (row col player : Int) : Bool :=
  b.is_valid_position row col ∧
    ((b.get_cell row col).1 = player ∨ (b.get_cell row col).2 = player)

/-- One step of the DFS in `check_bridge`: push the unvisited
same-coloured neighbours of `(row, col)` and mark them visited. -/
def bridgePush (b : Board) (player row col : Int)
    (acc : List (Int × Int) × List (Int × Int)) : List (Int × Int) × List (Int × Int) :=
  [((1 : Int), (0 : Int)), (-1, 0), (0, 1), (0, -1)].foldl
    (fun (acc : List (Int × Int) × List (Int × Int)) d =>
      let nr := row + d.1
      let nc := col + d.2
      if b.is_valid_position nr nc ∧ (nr, nc) ∉ acc.2 ∧ b.has_player_color nr nc player then
        ((nr, nc) :: acc.1, (nr, nc) :: acc.2)
      else acc)
    acc

/-- The `while stack:` loop of `check_bridge`, with enough fuel to pop
every cell that can ever be pushed (cells are marked visited when
pushed, so at most `size * size` pops occur). -/
def bridgeLoop (b : Board) (player : Int) :
    Nat → List (Int × Int) → List (Int × Int) → Bool
  | 0, _, _ => false
  | _ + 1, [], _ => false
  | fuel + 1, (row, col) :: stack, visited =>
    if (player = 1 ∧ row = (b.size : Int) - 1) ∨ (player = -1 ∧ col = (b.size : Int) - 1) then
      true
    else
      let acc := bridgePush b player row col (stack, visited)
      bridgeLoop b player fuel acc.1 acc.2

/-- `Board.check_bridge`: flood fill from the player's entry edge
(top row for player 1, left column for player -1) over
`has_player_color` cells, succeeding on reaching the opposite edge. -/
def check_bridge (b : Board) (player : Int) : Bool :=
  let seeds : List (Int × Int) :=
    if player = 1 then
      (List.range b.size).filterMap
        (fun c => if b.has_player_color 0 (c : Int) player then some ((0 : Int), (c : Int)) else none)
    else
      (List.range b.size).filterMap
        (fun r => if b.has_player_color (r : Int) 0 player then some ((r : Int), (0 : Int)) else none)
  bridgeLoop b player (b.size * b.size + 1) seeds seeds

end Board

/-!
## Inventory (`game.py` `PlayerBlocks`)
-/

/-- `PlayerBlocks`: remaining 4- and 5-blocks (3-blocks are unlimited). -/
structure PlayerBlocks where
  size4 : Int
  size5 : Int
  deriving DecidableEq, Repr

namespace PlayerBlocks

/-- `PlayerBlocks.has_block`. -/
def has_block (pb : PlayerBlocks) (size : Nat) : Bool :=
  if size = 3 then true
  else if size = 4 then 0 < pb.size4
  else if size = 5 then 0 < pb.size5
  else false

/-- `PlayerBlocks.use_block`: `some` of the decremented inventory on
success, `none` where the source returns `False`. -/
def use_block (pb : PlayerBlocks) (size : Nat) : Option PlayerBlocks :=
  if size = 3 then some pb
  else if size = 4 then (if 0 < pb.size4 then some { pb with size4 := pb.size4 - 1 } else none)
  else if size = 5 then (if 0 < pb.size5 then some { pb with size5 := pb.size5 - 1 } else none)
  else none

end PlayerBlocks

/-- The `player_blocks` dict lookup `player_blocks.get(move.player, {})`:
missing keys behave as an empty inventory. -/
def blocksFor (b1 bN : PlayerBlocks) (p : Int) : PlayerBlocks :=
  if p = 1 then b1 else if p = -1 then bN else ⟨0, 0⟩

/-!
## Move validation (`move.py` `MoveValidator.is_valid_move`)
-/

/-- The per-cell body of the validator's `for i, pos in enumerate(sorted_path)`
loop.  `firstLayer` is `sorted_path[0].layer`; `isFirst` is `i == 0`.
(Bounds are checked against the grid dimensions, which equal `size`.) -/
def cellCheck (b : Board) (player firstLayer : Int) (isFirst : Bool) (pos : Position) : Bool :=
  if pos.row < 0 ∨ (b.size : Int) ≤ pos.row then false
  else if pos.col < 0 ∨ (b.size : Int) ≤ pos.col then false
  else
    let c := b.get_cell pos.row pos.col
    if c.2 ≠ 0 then false
    else if isFirst then
      if pos.layer = 0 then c.1 = 0
      else if pos.layer = 1 then c.1 = player
      else true
    else
      if firstLayer = 0 then pos.layer = 0 ∧ c.1 = 0
      else pos.layer = 1 ∧ (c.1 = 0 ∨ c.1 = player)

/-- `MoveValidator.is_valid_move` (error strings are not modelled). -/
def MoveValidator.is_valid_move (m : Move) (b : Board) (b1 bN : PlayerBlocks) : Bool :=
  if ¬ m.validate_path then false
  else if m.block_size = 4 ∧ ¬ (0 < (blocksFor b1 bN m.player).size4) then false
  else if m.block_size = 5 ∧ ¬ (0 < (blocksFor b1 bN m.player).size5) then false
  else
    match sortedPath m.path with
    | [] => true
    | first :: rest =>
      cellCheck b m.player first.layer true first &&
      rest.all (cellCheck b m.player first.layer false) &&
      (!m.is_bridge_mode || (b.get_cell m.end_position.row m.end_position.col).1 = m.player)

end WataruTo

namespace WataruTo

/-!
## Game state (`game.py` `WataruToGame`)
-/

/-- `WataruToGame`'s fields, including the lazily filled legal-move
cache (`_legal_moves_cache` / `_cache_valid`). -/
structure GameState where
  board : Board
  current_player : Int
  blocks1 : PlayerBlocks
  blocksN : PlayerBlocks
  move_history : List Move
  winner : Option Int
  cache_valid : Bool
  legal_moves_cache : Option (List Move)
  deriving DecidableEq, Repr

namespace GameState

/-- `WataruToGame.__init__` without an initial state. -/
def init (size : Nat) : GameState :=
  ⟨Board.empty size, 1, ⟨1, 1⟩, ⟨1, 1⟩, [], none, false, none⟩

/-- `self.player_blocks[p]` (missing keys behave as empty inventory,
as in the validator's `.get`; the direct dict accesses only ever see
`±1`). -/
def blocksOf (g : GameState) (p : Int) : PlayerBlocks :=
  blocksFor g.blocks1 g.blocksN p

/-- Replace player `p`'s inventory. -/
def setBlocks (g : GameState) (p : Int) (pb : PlayerBlocks) : GameState :=
  if p = 1 then { g with blocks1 := pb }
  else if p = -1 then { g with blocksN := pb }
  else g

end GameState

/-!
## Legal-move generation (`game.py` `WataruToGame.get_legal_moves`)
-/

/-- The `if len(path) >= 3:` tail of the generation loop: emit the move
unless the bridge end-check or the inventory check skips it.  The
`try/except ValueError` around `Move(...)` silently drops moves whose
player is not `±1` (the constructor raises for those). -/
def emitMove (b : Board) (player startLayer : Int) (pb : PlayerBlocks)
    (path : List Position) (r c : Int) : List Move :=
  if 3 ≤ path.length then
    if startLayer = 1 ∧ (b.get_cell r c).1 ≠ player then []
    else if ¬ pb.has_block path.length then []
    else if player = 1 ∨ player = -1 then [⟨player, path⟩]
    else []
  else []

/-- The `for length in range(1, 5):` walk extending a path cell by cell
in direction `(dr, dc)`; `break` is modelled by returning, `continue`
by `emitMove` emitting nothing while the walk goes on. -/
def walkExt (b : Board) (player startLayer : Int) (pb : PlayerBlocks) (dr dc : Int) :
    Nat → Int → Int → List Position → List Move
  | 0, _, _, _ => []
  | steps + 1, r, c, path =>
    let r' := r + dr
    let c' := c + dc
    if ¬ b.is_valid_position r' c' then []
    else
      let cell := b.get_cell r' c'
      if cell.2 ≠ 0 then []
      else if startLayer = 0 then
        if cell.1 = 0 then
          let path' := path ++ [⟨r', c', 0⟩]
          emitMove b player startLayer pb path' r' c' ++
            walkExt b player startLayer pb dr dc steps r' c' path'
        else []
      else
        if cell.1 = player ∨ cell.1 = 0 then
          let path' := path ++ [⟨r', c', 1⟩]
          emitMove b player startLayer pb path' r' c' ++
            walkExt b player startLayer pb dr dc steps r' c' path'
        else []

/-- The body of the generator for one starting cell: starting layers
permitted by the cell, then the two non-redundant directions. -/
def genFrom (b : Board) (player : Int) (pb : PlayerBlocks) (row col : Int) : List Move :=
  let cell := b.get_cell row col
  if cell.2 ≠ 0 then []
  else
    let startLayers : List Int :=
      (if cell.1 = 0 then [0] else []) ++ (if cell.1 = player then [1] else [])
    startLayers.flatMap (fun sl =>
      [((0 : Int), (1 : Int)), (1, 0)].flatMap (fun d =>
        walkExt b player sl pb d.1 d.2 4 row col [⟨row, col, sl⟩]))

/-- The full enumeration over all starting cells (the computation that
`get_legal_moves` performs on a cache miss, for a non-terminal state). -/
def legalMovesGen (b : Board) (player : Int) (pb : PlayerBlocks) : List Move :=
  (List.range b.size).flatMap (fun row =>
    (List.range b.size).flatMap (fun col =>
      genFrom b player pb (row : Int) (col : Int)))

namespace GameState

/-- The legal moves of a state as recomputed from scratch: what
`get_legal_moves` returns when its cache is not consulted. -/
def legalMovesCalc (g : GameState) : List Move :=
  if g.winner ≠ none then []
  else legalMovesGen g.board g.current_player (g.blocksOf g.current_player)

/-- `WataruToGame.get_legal_moves` with its caching behaviour: a valid
cache is returned as-is (even a stale one), otherwise the list is
recomputed and stored.  The terminal early return does not store. -/
def get_legal_moves (g : GameState) : List Move × GameState :=
  if g.cache_valid ∧ g.legal_moves_cache ≠ none then
    (g.legal_moves_cache.getD [], g)
  else if g.winner ≠ none then ([], g)
  else
    let moves := legalMovesGen g.board g.current_player (g.blocksOf g.current_player)
    (moves, { g with cache_valid := true, legal_moves_cache := some moves })

/-- `WataruToGame.is_valid_move`: terminal check, turn check, then the
`MoveValidator`. -/
def is_valid_move (g : GameState) (m : Move) : Bool :=
  if g.winner ≠ none then false
  else if m.player ≠ g.current_player then false
  else MoveValidator.is_valid_move m g.board g.blocks1 g.blocksN

/-- `WataruToGame.apply_move`: validate, consume inventory, write the
path, append history, run the bridge check, flip the turn if the game
goes on, and invalidate the cache. -/
def apply_move (g : GameState) (m : Move) : Bool × GameState :=
  if ¬ g.is_valid_move m then (false, g)
  else
    match (g.blocksOf m.player).use_block m.block_size with
    | none => (false, g)
    | some pb' =>
      let g1 := g.setBlocks m.player pb'
      let b' := m.path.foldl
        (fun (bd : Board) pos => bd.set_cell pos.row pos.col pos.layer m.player) g1.board
      let winner' : Option Int := if b'.check_bridge m.player then some m.player else g.winner
      let cur' : Int := if winner' = none then -g.current_player else g.current_player
      (true, { g1 with
        board := b'
        move_history := g.move_history ++ [m]
        winner := winner'
        current_player := cur'
        cache_valid := false })

/-- `WataruToGame.undo_last_move`: pop the last move, clear its cells,
restore inventory and turn, clear the winner.  (The cache-valid flag is
left untouched — the source has no invalidation here.) -/
def undo_last_move (g : GameState) : Bool × GameState :=
  match g.move_history.getLast? with
  | none => (false, g)
  | some last =>
    let b' := last.path.foldl
      (fun (bd : Board) pos => bd.set_cell pos.row pos.col pos.layer 0) g.board
    let g1 :=
      if last.block_size = 4 then
        g.setBlocks last.player { g.blocksOf last.player with size4 := (g.blocksOf last.player).size4 + 1 }
      else if last.block_size = 5 then
        g.setBlocks last.player { g.blocksOf last.player with size5 := (g.blocksOf last.player).size5 + 1 }
      else g
    (true, { g1 with
      board := b'
      move_history := g.move_history.dropLast
      current_player := last.player
      winner := none })

/-- `WataruToGame.check_winner` (a query: it never stores `winner`, but
its `get_legal_moves` call may fill the cache). -/
def check_winner (g : GameState) : Option Int × GameState :=
  if g.winner ≠ none then (g.winner, g)
  else if g.board.check_bridge 1 then (some 1, g)
  else if g.board.check_bridge (-1) then (some (-1), g)
  else
    let r := g.get_legal_moves
    if r.1.length = 0 then (some 0, r.2) else (none, r.2)

/-- `WataruToGame.clone` (a `get_state`/`_load_state` round trip:
everything is copied, the cache starts invalid). -/
def clone (g : GameState) : GameState :=
  { g with cache_valid := false, legal_moves_cache := none }

/-- `WataruToGame.reset`: fresh board and inventories, player 1 to
move, empty history, no winner; only the cache flag is cleared. -/
def reset (g : GameState) : GameState :=
  { board := Board.empty g.board.size
    current_player := 1
    blocks1 := ⟨1, 1⟩
    blocksN := ⟨1, 1⟩
    move_history := []
    winner := none
    cache_valid := false
    legal_moves_cache := g.legal_moves_cache }

end GameState

end WataruTo

namespace WataruTo

/-!
## MCTS engine (`ai/mcts.py`)

The object tree (child lists plus parent back-references, updated in
place) is modelled as a purely functional tree: `simulateOnce` returns
the rebuilt subtree together with the score that `backpropagate` adds
at its root, and the caller adds the complementary `1 - score`, which
is exactly the source's recursive back-propagation.  `random.randint`
and `random.choice` draw from an arbitrary injected stream of naturals;
the wall-clock/simulation-count budget of the `while True:` loop is
collapsed into the number of iterations the loop performs.
-/

/-- A stream of pseudo-random draws (one per `random.*` call). -/
abbrev RNG := Nat → Nat

/-- `random.randint(0, n - 1)` / `random.choice` index from draw `k`. -/
def randPick (rng : RNG) (k : Nat) (n : Nat) : Nat := rng k % n

/-- `MCTSStats` (wall-clock `time_elapsed` is not modelled). -/
structure MCTSStats where
  nodes_explored : Nat := 0
  simulations_run : Nat := 0
  best_move_visits : Nat := 0
  best_move_win_rate : ℚ := 0
  deriving DecidableEq, Repr

/-- `MCTSNode`: state, the move that produced it, untried moves,
children, visit count, accumulated wins, player to move. -/
inductive MCTSTree where
  | node (game_state : GameState) (move : Option Move) (untried_moves : List Move)
      (children : List MCTSTree) (visits : Nat) (wins : ℚ) (player : Int)

namespace MCTSTree

def game_state : MCTSTree → GameState | node s _ _ _ _ _ _ => s

def moveOf : MCTSTree → Option Move | node _ m _ _ _ _ _ => m

def untried_moves : MCTSTree → List Move | node _ _ u _ _ _ _ => u

def children : MCTSTree → List MCTSTree | node _ _ _ c _ _ _ => c

def visits : MCTSTree → Nat | node _ _ _ _ v _ _ => v

def wins : MCTSTree → ℚ | node _ _ _ _ _ w _ => w

def playerOf : MCTSTree → Int | node _ _ _ _ _ _ p => p

end MCTSTree

/-- `MCTSNode.__init__`: the untried moves are the state's legal moves
(the call fills the node state's cache, which the model keeps). -/
def mkNode (s : GameState) (mv : Option Move) : MCTSTree :=
  let r := s.get_legal_moves
  .node r.2 mv r.1 [] 0 0 r.2.current_player

/-- `MCTSNode.ucb1`: `+infinity` for an unvisited node, otherwise
`wins/visits + c*sqrt(ln(parent.visits)/visits)`.  Real-valued, hence
the selection functions below are noncomputable. -/
noncomputable def ucb1 (c : ℝ) (parentVisits : Nat) (t : MCTSTree) : EReal :=
  if t.visits = 0 then (⊤ : EReal)
  else (((((t.wins : ℚ) : ℝ) / t.visits) + c * Real.sqrt (Real.log parentVisits / t.visits) : ℝ) : EReal)

/-- Python's `max(xs, key=key)` on a non-empty list `x :: xs`: the first
element of maximal key (later elements replace only on strict `>`). -/
noncomputable def pyMax {α : Type} (key : α → EReal) (x : α) (xs : List α) : α :=
  xs.foldl (fun best y => if key best < key y then y else best) x

/-- Index-returning variant, used where the functional tree must
replace the selected child in place. -/
noncomputable def pyArgmaxFrom {α : Type} (key : α → EReal) :
    Nat → Nat → EReal → List α → Nat
  | _, best, _, [] => best
  | i, best, bkey, y :: ys =>
    if bkey < key y then pyArgmaxFrom key (i + 1) i (key y) ys
    else pyArgmaxFrom key (i + 1) best bkey ys

/-- `MCTSNode.select_child`: the child maximizing `ucb1()` — called
with its default `exploration_weight = 1.41`, not the engine's
configured constant.  (`max` on an empty sequence raises; the selection
loop only calls this with children present.) -/
noncomputable def select_child (parentVisits : Nat) : List MCTSTree → Option MCTSTree
  | [] => none
  | x :: xs => some (pyMax (ucb1 1.41 parentVisits) x xs)

/-- Index of the child `select_child` picks. -/
noncomputable def select_child_idx (parentVisits : Nat) : List MCTSTree → Nat
  | [] => 0
  | x :: xs => pyArgmaxFrom (ucb1 1.41 parentVisits) 1 0 (ucb1 1.41 parentVisits x) xs

/-- `MCTS._find_winning_move`: scan the first `max_check` legal moves
for one whose application wins for the side to move. -/
def find_winning_move (g : GameState) (legal : List Move) (maxCheck : Nat) : Option Move :=
  (legal.take maxCheck).find? (fun m => ((g.clone.apply_move m).2.winner == some g.current_player))

/-- The opponent's one-ply winning replies, as computed both by
`MCTS.search`'s emergency block and by `_find_blocking_move`: give the
opponent the move on a cloned state and keep the legal replies that
win. -/
def oppWinningMoves (g : GameState) : List Move :=
  let t := { g.clone with current_player := -g.current_player }
  let r := t.get_legal_moves
  r.1.filter (fun om => ((r.2.clone.apply_move om).2.winner == some (-g.current_player)))

/-- After `my` is played, can the opponent still win in one ply?
(the inner loop of `_find_blocking_move`). -/
def oppCanStillWin (g : GameState) (my : Move) : Bool :=
  let t := (g.clone.apply_move my).2
  let r := t.get_legal_moves
  r.1.any (fun om => ((r.2.clone.apply_move om).2.winner == some (-g.current_player)))

/-- `MCTS._find_blocking_move`: if the opponent has winning replies,
the first own legal move that removes them all. -/
def find_blocking_move (g : GameState) (legal : List Move) : Option Move :=
  if (oppWinningMoves g).isEmpty then none
  else legal.find? (fun my => ! oppCanStillWin g my)

/-- The playout loop shared by `_simulate_pure_random_playout` and
`_simulate_tactical_playout` (they differ only in the winning-move
scan); the `move_count < 100` cap is the fuel.  Returns the winner,
`0` for a draw. -/
def playoutLoop (tactical : Bool) (rng : RNG) : Nat → Nat → GameState → Int
  | 0, _, g => (g.winner).getD 0
  | n + 1, k, g =>
    if g.winner ≠ none then (g.winner).getD 0
    else
      let r := g.get_legal_moves
      if r.1.isEmpty then (g.winner).getD 0
      else
        match (if tactical then find_winning_move r.2 r.1 30 else none) with
        | some wm => playoutLoop tactical rng n k ((r.2.apply_move wm).2)
        | none =>
          let m := (r.1.getD (randPick rng k r.1.length) ⟨0, []⟩)
          playoutLoop tactical rng n (k + 1) ((r.2.apply_move m).2)

/-- `MCTS._simulate_once`: selection by UCB1, expansion of one random
untried move, playout, and back-propagation.  The recursion is fuelled
(the source recursion depth is bounded by the tree height); the second
result is the score added at this subtree's root, the caller adds
`1 - score` one level up. -/
noncomputable def simulateOnce (tactical : Bool) (rng : RNG) :
    Nat → Nat → MCTSTree → MCTSTree × ℚ
  | 0, _, t => (t, 0)
  | fuel + 1, k, .node s mv untried cs visits wins player =>
    if s.winner = none ∧ untried = [] ∧ cs.isEmpty = false then
      -- Selection: descend into the UCB1-maximal child.
      let idx := select_child_idx visits cs
      match cs.get? idx with
      | some ch =>
        let r := simulateOnce tactical rng fuel k ch
        let sc := 1 - r.2
        (.node s mv untried (cs.set idx r.1) (visits + 1) (wins + sc) player, sc)
      | none => (.node s mv untried cs visits wins player, 0)
    else if s.winner = none ∧ untried ≠ [] then
      -- Expansion: pop a random untried move, apply it on a clone,
      -- then run a playout from the new child's cloned state.
      let j := randPick rng k untried.length
      let m := untried.getD j ⟨0, []⟩
      let child := mkNode ((s.clone.apply_move m).2) (some m)
      let result := playoutLoop tactical rng 100 (k + 1) child.game_state.clone
      let childScore : ℚ :=
        if result = child.playerOf then 1 else if result = 0 then 1 / 2 else 0
      let child' : MCTSTree :=
        .node child.game_state (some m) child.untried_moves [] 1 childScore child.playerOf
      let sc := 1 - childScore
      (.node s mv (untried.eraseIdx j) (cs ++ [child']) (visits + 1) (wins + sc) player, sc)
    else
      -- Terminal or expansion-exhausted leaf: playout from here.
      let result := playoutLoop tactical rng 100 k s.clone
      let sc : ℚ := if result = player then 1 else if result = 0 then 1 / 2 else 0
      (.node s mv untried cs (visits + 1) (wins + sc) player, sc)

/-- The budgeted `while True:` loop of `MCTS.search`: run `budget`
simulations on the root (each with its own draw stream and ample
recursion fuel). -/
noncomputable def mctsLoop (tactical : Bool) (rngs : Nat → RNG) (budget : Nat) :
    Nat → MCTSTree → MCTSTree
  | 0, t => t
  | n + 1, t =>
    mctsLoop tactical rngs budget n
      (simulateOnce tactical (rngs (budget - (n + 1))) (budget + 2) 0 t).1

/-- `MCTS._count_nodes`. -/
def countNodes : MCTSTree → Nat
  | .node _ _ _ cs _ _ _ => 1 + (cs.attach.map (fun c => countNodes c.1)).sum
decreasing_by
  simp_wf
  have hlt := List.sizeOf_lt_of_mem c.2
  omega

/-- The post-loop tail of `search`: pick the most-visited root child. -/
noncomputable def searchTail (root' : MCTSTree) (budget : Nat) : Option Move × MCTSStats :=
  match root'.children with
  | [] => (none, { simulations_run := budget, nodes_explored := countNodes root' })
  | c :: cs =>
    let best := pyMax (fun ch => ((ch.visits : ℝ) : EReal)) c cs
    (best.moveOf,
      { simulations_run := budget
        nodes_explored := countNodes root'
        best_move_visits := best.visits
        best_move_win_rate := if best.visits = 0 then 0 else best.wins / best.visits })

/-- The engine configuration (`MCTS.__init__`): the UCB1 constant and
the tactical toggle.  `time_limit`/`max_simulations` are collapsed into
the loop's iteration budget. -/
structure MCTSConfig where
  exploration_weight : ℝ := 1.41
  use_tactical_heuristics : Bool := true

/-- `MCTS.search`: root creation, the no-legal-moves early `None`, the
tactical emergency-defense short-circuit, then the simulation loop and
the most-visited-child answer. -/
noncomputable def search (cfg : MCTSConfig) (rngs : Nat → RNG) (budget : Nat)
    (g : GameState) : Option Move × MCTSStats :=
  let root := mkNode g.clone none
  if root.untried_moves = [] ∧ root.children.isEmpty then (none, {})
  else
    let defense : Option Move :=
      if cfg.use_tactical_heuristics ∧ oppWinningMoves g ≠ [] then
        find_blocking_move g (g.get_legal_moves).1
      else none
    match defense with
    | some b =>
      (some b, { simulations_run := 0, nodes_explored := 1,
                 best_move_visits := 1, best_move_win_rate := 1 })
    | none => searchTail (mctsLoop cfg.use_tactical_heuristics rngs budget budget root) budget

end WataruTo

namespace WataruTo

/-!
## Concrete states and moves used by the claim analyses
-/

/-- The empty 3×3 game (spec §8 scenario 1 uses this board size). -/
def s3 : GameState := GameState.init 3

/-- A 3×3 board whose only occupied cell is layer 1 of `(0,0)`,
held by player 1. -/
def bC2 : Board := (Board.empty 3).set_cell 0 0 0 1

/-- Game state over `bC2`, player 1 to move. -/
def sC2 : GameState := ⟨bC2, 1, ⟨1, 1⟩, ⟨1, 1⟩, [], none, false, none⟩

/-- A bridge move along row 0 written in *decreasing* column order:
`[(0,2,1),(0,1,1),(0,0,1)]` for player 1. -/
def mRev : Move := ⟨1, [⟨0, 2, 1⟩, ⟨0, 1, 1⟩, ⟨0, 0, 1⟩]⟩

/-- Five moves that reach, from the empty 4×4 board, a state whose cell
`(0,1)` carries a layer-2 tile above an empty layer-1 slot. -/
def gC1₀ : GameState := GameState.init 4

def mvC1₁ : Move := ⟨1, [⟨0, 0, 0⟩, ⟨1, 0, 0⟩, ⟨2, 0, 0⟩]⟩

def mvC1₂ : Move := ⟨-1, [⟨3, 0, 0⟩, ⟨3, 1, 0⟩, ⟨3, 2, 0⟩]⟩

def mvC1₃ : Move := ⟨1, [⟨0, 2, 0⟩, ⟨1, 2, 0⟩, ⟨2, 2, 0⟩]⟩

def mvC1₄ : Move := ⟨-1, [⟨0, 3, 0⟩, ⟨1, 3, 0⟩, ⟨2, 3, 0⟩]⟩

def mvC1₅ : Move := ⟨1, [⟨0, 0, 1⟩, ⟨0, 1, 1⟩, ⟨0, 2, 1⟩]⟩

/-- Apply one move, keeping only the state. -/
def stepMove (g : GameState) (m : Move) : GameState := (g.apply_move m).2

/-- The state after the five moves above. -/
def gC1 : GameState :=
  stepMove (stepMove (stepMove (stepMove (stepMove gC1₀ mvC1₁) mvC1₂) mvC1₃) mvC1₄) mvC1₅

/-- Fold `apply_move` over a list of moves (rejected moves leave the
state unchanged, so this captures every sequence of accepted calls). -/
def applyAll (g : GameState) (ms : List Move) : GameState :=
  ms.foldl stepMove g

/-- Player 1's horizontal opening `[(0,0),(0,1),(0,2)]` on the 3×3 board. -/
def mH0 : Move := ⟨1, [⟨0, 0, 0⟩, ⟨0, 1, 0⟩, ⟨0, 2, 0⟩]⟩

/-- C3 failing input, step 1: apply `mH0` to the fresh 3×3 game. -/
def sC3a : GameState := (s3.apply_move mH0).2

/-- C3 failing input, step 2: read the legal moves (filling the cache). -/
def sC3b : GameState := (sC3a.get_legal_moves).2

/-- C3 failing input, step 3: undo the move. -/
def sC3c : GameState := (sC3b.undo_last_move).2

/-- C4 board: row 0 is player 1's, columns 0–1 of rows 1–2 are
player -1's, the rest is empty. -/
def bC4 : Board :=
  (((((((Board.empty 3).set_cell 0 0 0 1).set_cell 0 1 0 1).set_cell 0 2 0 1).set_cell
      1 0 0 (-1)).set_cell 1 1 0 (-1)).set_cell 2 0 0 (-1)).set_cell 2 1 0 (-1)

/-- C4 state: player 1 to move on `bC4`. -/
def sC4 : GameState := ⟨bC4, 1, ⟨1, 1⟩, ⟨1, 1⟩, [], none, false, none⟩

/-- Player 1's bridge over their own row 0 (legal, non-winning, and it
leaves player -1 without a single legal move). -/
def mC4 : Move := ⟨1, [⟨0, 0, 1⟩, ⟨0, 1, 1⟩, ⟨0, 2, 1⟩]⟩

/-- C9 child with 4 visits and 4 wins (exploitation term 1). -/
def nodeA : MCTSTree := .node (GameState.init 1) none [] [] 4 4 1

/-- C9 child with 1 visit and half a win (exploitation term 1/2). -/
def nodeB : MCTSTree := .node (GameState.init 1) none [] [] 1 (1 / 2) 1

/-- C9 child that was never visited. -/
def nodeC : MCTSTree := .node (GameState.init 1) none [] [] 0 0 1

end WataruTo

namespace WataruTo

/-!
## Well-formedness and the board invariant under scrutiny
-/

/-- Every board the code builds is a `size × size` grid. -/
def Board.WF (b : Board) : Prop :=
  b.cells.length = b.size ∧ ∀ row ∈ b.cells, row.length = b.size

/-- The amended layer invariant: a non-zero layer-2 value sits above a
layer-1 slot that is empty or holds the same colour. -/
def LayerInv (b : Board) : Prop :=
  ∀ r c : Int, (b.get_cell r c).2 ≠ 0 →
    (b.get_cell r c).1 = 0 ∨ (b.get_cell r c).1 = (b.get_cell r c).2

end WataruTo

namespace WataruTo

/-!
## A closed description of the generator's walk

`walkCells r c dr dc sl k` lists the `k` cells the generation loop
visits after the start cell `(r, c)`, in order; `stepOK` is the
loop's per-cell continuation condition.  These name the enumeration's
behaviour so that membership in `get_legal_moves` can be characterised
and compared against the validator.
-/

/-- The `k` cells appended by the walk after `(r, c)`. -/
def walkCells (r c dr dc sl : Int) : Nat → List Position
  | 0 => []
  | k + 1 => ⟨r + dr, c + dc, sl⟩ :: walkCells (r + dr) (c + dc) dr dc sl k

/-- The generation loop's condition for stepping onto a cell. -/
def stepOK (b : Board) (p sl : Int) (pos : Position) : Bool :=
  b.is_valid_position pos.row pos.col &&
  ((b.get_cell pos.row pos.col).2 = 0) &&
  (if sl = 0 then ((b.get_cell pos.row pos.col).1 = 0 : Bool)
   else ((b.get_cell pos.row pos.col).1 = p ∨ (b.get_cell pos.row pos.col).1 = 0 : Bool))

end WataruTo

namespace WataruTo

/-!
## Library lemmas about the stable sort
-/

theorem insertKeyed_perm (key : Position → Int) (x : Position) (l : List Position) :
    List.Perm (insertKeyed key x l) (x :: l) := by
  induction l with
  | nil => simp [insertKeyed]
  | cons y ys ih =>
    simp only [insertKeyed]
    split
    · exact List.Perm.refl _
    · exact (List.Perm.cons y ih).trans (List.Perm.swap x y ys)

theorem pySortBy_perm (key : Position → Int) (l : List Position) :
    List.Perm (pySortBy key l) l := by
  induction l with
  | nil => simp [pySortBy]
  | cons x xs ih =>
    exact (insertKeyed_perm key x (pySortBy key xs)).trans (List.Perm.cons x ih)

theorem mem_pySortBy (key : Position → Int) (l : List Position) (p : Position) :
    p ∈ pySortBy key l ↔ p ∈ l :=
  (pySortBy_perm key l).mem_iff

theorem pySortBy_length (key : Position → Int) (l : List Position) :
    (pySortBy key l).length = l.length :=
  (pySortBy_perm key l).length_eq

/-- Sorting a list whose keys are already (weakly) increasing is the identity. -/
theorem pySortBy_eq_self (key : Position → Int) :
    ∀ l : List Position, l.Chain' (fun a b => key a ≤ key b) → pySortBy key l = l := by
  intro l hl
  induction l with
  | nil => rfl
  | cons x xs ih =>
    have hxs : xs.Chain' (fun a b => key a ≤ key b) := hl.tail
    have hsorted := ih hxs
    simp only [pySortBy, hsorted]
    cases xs with
    | nil => rfl
    | cons y ys =>
      have hxy : key x ≤ key y := (List.chain'_cons.mp hl).1
      simp [insertKeyed, hxy]

/-!
## Small facts about the state machine
-/

/-- An accepted move can only exist in a non-terminal state. -/
theorem is_valid_move_winner {g : GameState} {m : Move}
    (h : g.is_valid_move m = true) : g.winner = none := by
  by_cases hw : g.winner = none
  · exact hw
  · simp [GameState.is_valid_move, hw] at h

/-- An accepted move is the current player's. -/
theorem is_valid_move_player {g : GameState} {m : Move}
    (h : g.is_valid_move m = true) : m.player = g.current_player := by
  by_cases hp : m.player = g.current_player
  · exact hp
  · simp [GameState.is_valid_move, hp] at h

/-!
## C10 — undo on an empty history
-/

/-- C10: calling `undo_last_move` on a `GameState` whose move history is
empty returns `False` and leaves the state entirely unchanged. -/
theorem undo_on_empty_history (g : GameState) (h : g.move_history = []) :
    g.undo_last_move = (false, g) := by
  simp [GameState.undo_last_move, h]

/-- Witness for C10 at the fresh 3×3 game. -/
theorem undo_on_empty_history_witness : (GameState.init 3).undo_last_move = (false, GameState.init 3) :=
  undo_on_empty_history (GameState.init 3) rfl

/-!
## C8 — rejected moves do not mutate and do not raise
-/

/-- C8: when `apply_move` is given a rejected move (invalid path shape,
occupancy or inventory violation, wrong player, or a terminal state —
that is, any move failing `is_valid_move`), it returns `False` (the
total function never raises) and the `GameState` is unchanged. -/
theorem apply_move_rejected (g : GameState) (m : Move)
    (h : g.is_valid_move m = false) : g.apply_move m = (false, g) := by
  simp [GameState.apply_move, h]

/-- Witness for C8: a wrong-player move on the fresh 3×3 game. -/
theorem apply_move_rejected_witness :
    s3.apply_move ⟨-1, [⟨1, 0, 0⟩, ⟨1, 1, 0⟩, ⟨1, 2, 0⟩]⟩ = (false, s3) :=
  apply_move_rejected s3 ⟨-1, [⟨1, 0, 0⟩, ⟨1, 1, 0⟩, ⟨1, 2, 0⟩]⟩ (by decide)

/-!
## C4 — `apply_move` never declares a draw
-/

/-- C4 counterexample: on `sC4`, player 1's bridge `mC4` is accepted and
does not complete a bridge, the next player is left without a single
legal move, and yet `apply_move` does **not** set `winner = 0`: the
winner stays `none` (the state is not terminal at all). -/
theorem apply_move_no_draw_counterexample :
    (sC4.apply_move mC4).1 = true ∧
    (sC4.apply_move mC4).2.board.check_bridge 1 = false ∧
    (sC4.apply_move mC4).2.legalMovesCalc = [] ∧
    (sC4.apply_move mC4).2.winner = none ∧
    ¬ (sC4.apply_move mC4).2.winner = some 0 := by
  decide

/-- `setBlocks` touches only the two inventory fields. -/
theorem setBlocks_board (g : GameState) (p : Int) (pb : PlayerBlocks) :
    (g.setBlocks p pb).board = g.board := by
  unfold GameState.setBlocks; split_ifs <;> rfl

theorem setBlocks_winner (g : GameState) (p : Int) (pb : PlayerBlocks) :
    (g.setBlocks p pb).winner = g.winner := by
  unfold GameState.setBlocks; split_ifs <;> rfl

theorem setBlocks_current_player (g : GameState) (p : Int) (pb : PlayerBlocks) :
    (g.setBlocks p pb).current_player = g.current_player := by
  unfold GameState.setBlocks; split_ifs <;> rfl

theorem setBlocks_history (g : GameState) (p : Int) (pb : PlayerBlocks) :
    (g.setBlocks p pb).move_history = g.move_history := by
  unfold GameState.setBlocks; split_ifs <;> rfl

/-- Validator acceptance implies the path shape passed. -/
theorem validator_validate_path {m : Move} {b : Board} {b1 bN : PlayerBlocks}
    (h : MoveValidator.is_valid_move m b b1 bN = true) : m.validate_path = true := by
  by_cases hp : m.validate_path
  · exact hp
  · simp [MoveValidator.is_valid_move, hp] at h

/-- Validator acceptance implies the 4-block stock check passed. -/
theorem validator_size4 {m : Move} {b : Board} {b1 bN : PlayerBlocks}
    (h : MoveValidator.is_valid_move m b b1 bN = true) (h4 : m.block_size = 4) :
    0 < (blocksFor b1 bN m.player).size4 := by
  by_cases hs : 0 < (blocksFor b1 bN m.player).size4
  · exact hs
  · simp [MoveValidator.is_valid_move, h4, hs, validator_validate_path h] at h

/-- Validator acceptance implies the 5-block stock check passed. -/
theorem validator_size5 {m : Move} {b : Board} {b1 bN : PlayerBlocks}
    (h : MoveValidator.is_valid_move m b b1 bN = true) (h5 : m.block_size = 5) :
    0 < (blocksFor b1 bN m.player).size5 := by
  by_cases hs : 0 < (blocksFor b1 bN m.player).size5
  · exact hs
  · have h4 : ¬ m.block_size = 4 := by omega
    simp [MoveValidator.is_valid_move, h4, h5, hs, validator_validate_path h] at h

/-- A validated path has between 3 and 5 positions. -/
theorem validate_path_length {m : Move} (h : m.validate_path = true) :
    3 ≤ m.path.length ∧ m.path.length ≤ 5 := by
  by_cases hl : m.path.length < 3 ∨ 5 < m.path.length
  · simp [Move.validate_path, hl] at h
  · omega

/-- Game-level acceptance reaches the `MoveValidator`. -/
theorem is_valid_move_validator {g : GameState} {m : Move}
    (h : g.is_valid_move m = true) :
    MoveValidator.is_valid_move m g.board g.blocks1 g.blocksN = true := by
  have hw := is_valid_move_winner h
  have hp := is_valid_move_player h
  simpa [GameState.is_valid_move, hw, hp] using h

/-- On an accepted move the inventory draw always succeeds. -/
theorem use_block_of_valid {g : GameState} {m : Move}
    (h : g.is_valid_move m = true) :
    ∃ pb', (g.blocksOf m.player).use_block m.block_size = some pb' := by
  have hv := is_valid_move_validator h
  by_cases h3 : m.block_size = 3
  · exact ⟨g.blocksOf m.player, by simp [PlayerBlocks.use_block, h3]⟩
  · by_cases h4 : m.block_size = 4
    · have hs := validator_size4 hv h4
      exact ⟨{ g.blocksOf m.player with size4 := (g.blocksOf m.player).size4 - 1 },
        by simp [PlayerBlocks.use_block, h3, h4, GameState.blocksOf, hs]⟩
    · have hlen := validate_path_length (validator_validate_path hv)
      have h5 : m.block_size = 5 := by unfold Move.block_size at h3 h4 ⊢; omega
      have hs := validator_size5 hv h5
      exact ⟨{ g.blocksOf m.player with size5 := (g.blocksOf m.player).size5 - 1 },
        by simp [PlayerBlocks.use_block, h3, h4, h5, GameState.blocksOf, hs]⟩

/-- The board produced by a successful `apply_move`. -/
theorem apply_move_board {g : GameState} {m : Move} {pb' : PlayerBlocks}
    (hv : g.is_valid_move m = true)
    (hu : (g.blocksOf m.player).use_block m.block_size = some pb') :
    (g.apply_move m).2.board =
      m.path.foldl (fun bd pos => bd.set_cell pos.row pos.col pos.layer m.player) g.board := by
  simp [GameState.apply_move, hv, hu, setBlocks_board]

/-- A successful `apply_move` returns `true`. -/
theorem apply_move_fst {g : GameState} {m : Move} {pb' : PlayerBlocks}
    (hv : g.is_valid_move m = true)
    (hu : (g.blocksOf m.player).use_block m.block_size = some pb') :
    (g.apply_move m).1 = true := by
  simp [GameState.apply_move, hv, hu]

/-- The winner field after a successful `apply_move`. -/
theorem apply_move_winner {g : GameState} {m : Move} {pb' : PlayerBlocks}
    (hv : g.is_valid_move m = true)
    (hu : (g.blocksOf m.player).use_block m.block_size = some pb') :
    (g.apply_move m).2.winner =
      if ((g.apply_move m).2.board.check_bridge m.player) = true then some m.player
      else g.winner := by
  simp [GameState.apply_move, hv, hu, setBlocks_board]

/-- The player to move after a successful `apply_move`. -/
theorem apply_move_current_player {g : GameState} {m : Move} {pb' : PlayerBlocks}
    (hv : g.is_valid_move m = true)
    (hu : (g.blocksOf m.player).use_block m.block_size = some pb') :
    (g.apply_move m).2.current_player =
      if (g.apply_move m).2.winner = none then -g.current_player
      else g.current_player := by
  simp [GameState.apply_move, hv, hu, setBlocks_board, setBlocks_current_player]

/-- The history after a successful `apply_move`. -/
theorem apply_move_history {g : GameState} {m : Move} {pb' : PlayerBlocks}
    (hv : g.is_valid_move m = true)
    (hu : (g.blocksOf m.player).use_block m.block_size = some pb') :
    (g.apply_move m).2.move_history = g.move_history ++ [m] := by
  simp [GameState.apply_move, hv, hu, setBlocks_history]

/-- C4 amended: after a legal move that does not complete the mover\'s
bridge, `apply_move` leaves `winner = none` and passes the turn to the
other player even when that player has no legal moves; no draw (and no
territory count) is ever produced by `apply_move` — the `winner = 0`
outcome exists only in the separate `check_winner` query. -/
theorem apply_move_no_draw (g : GameState) (m : Move)
    (h : (g.apply_move m).1 = true)
    (hb : (g.apply_move m).2.board.check_bridge m.player = false) :
    (g.apply_move m).2.winner = none ∧
    (g.apply_move m).2.current_player = -g.current_player := by
  by_cases hv : g.is_valid_move m
  · obtain ⟨pb', hu⟩ := use_block_of_valid hv
    have hw : g.winner = none := is_valid_move_winner hv
    have h1 := apply_move_winner hv hu
    rw [hb] at h1
    simp only [Bool.false_eq_true, if_false, hw] at h1
    refine ⟨h1, ?_⟩
    rw [apply_move_current_player hv hu, h1]
    simp
  · simp [GameState.apply_move, hv] at h

/-- Witness for C4 (amended) at the concrete counterexample state. -/
theorem apply_move_no_draw_witness :
    (sC4.apply_move mC4).2.winner = none ∧
    (sC4.apply_move mC4).2.current_player = -sC4.current_player :=
  apply_move_no_draw sC4 mC4 (by decide) (by decide)

end WataruTo

namespace WataruTo

/-!
## C3 — the legal-move cache is not invalidated by undo
-/

/-- C3 (failing input): apply a move on the fresh 3×3 game, read the
legal moves (filling the cache), then undo.  The next `get_legal_moves`
returns the list cached *before* the undo — player -1's two replies on
the pre-undo board — and not the legal moves of the restored state
(player 1's six opening moves). -/
theorem cache_stale_after_undo :
    (sC3b.undo_last_move).1 = true ∧
    sC3c.cache_valid = true ∧
    (sC3c.get_legal_moves).1 = (sC3a.get_legal_moves).1 ∧
    (sC3c.get_legal_moves).1 ≠ sC3c.legalMovesCalc := by
  decide

/-!
## C2 — validator acceptance vs. enumeration membership
-/

/-- C2 counterexample: on `sC2` (player 1 owns only layer 1 of `(0,0)`),
the bridge move `mRev`, whose path is written in decreasing column
order, is **accepted** by the legality check — the far end `(0,2)` over
empty ground escapes the bridge end-check because `path[-1]` is the
cell `(0,0)` — yet no move of equal path/player/size appears in the
enumerated legal-move list. -/
theorem legality_enumeration_mismatch :
    sC2.is_valid_move mRev = true ∧
    ∀ mm ∈ (sC2.get_legal_moves).1,
      ¬ (mm.path = mRev.path ∧ mm.player = mRev.player ∧ mm.block_size = mRev.block_size) := by
  decide

/-!
## C1 — the bridge-over-empty counterexample
-/

/-- C1 counterexample: five accepted moves from the empty 4×4 board
reach a state whose cell `(0,1)` holds a layer-2 tile of player 1 above
an **empty** layer-1 slot: layer 2 being non-zero does not imply layer 1
is non-zero on reachable boards (bridges may span empty ground, spec
§4.2(c)). -/
theorem bridge_rests_on_empty_counterexample :
    (gC1₀.apply_move mvC1₁).1 = true ∧
    ((stepMove gC1₀ mvC1₁).apply_move mvC1₂).1 = true ∧
    ((stepMove (stepMove gC1₀ mvC1₁) mvC1₂).apply_move mvC1₃).1 = true ∧
    ((stepMove (stepMove (stepMove gC1₀ mvC1₁) mvC1₂) mvC1₃).apply_move mvC1₄).1 = true ∧
    ((stepMove (stepMove (stepMove (stepMove gC1₀ mvC1₁) mvC1₂) mvC1₃) mvC1₄).apply_move mvC1₅).1 = true ∧
    (gC1.board.get_cell 0 1).2 = 1 ∧
    (gC1.board.get_cell 0 1).1 = 0 := by
  decide

end WataruTo

namespace WataruTo

/-!
## Cell-level lemmas about `set_cell`
-/

/-- Writing then reading a `List.set`, as one formula. -/
theorem getD_set_formula {α : Type} (i j : Nat) (a d : α) (l : List α) :
    (l.set i a).getD j d = if j = i ∧ i < l.length then a else l.getD j d := by
  by_cases hij : j = i
  · subst hij
    by_cases hlen : j < l.length
    · simp [List.getD_eq_getElem?_getD, List.getElem?_set_eq_of_lt a hlen, hlen]
    · rw [List.set_eq_of_length_le (Nat.le_of_not_lt hlen)]
      simp [hlen]
  · simp [List.getD_eq_getElem?_getD, List.getElem?_set_ne (fun h => hij h.symm), hij]

/-- `get_cell` only looks at the `toNat` images of its coordinates. -/
theorem get_cell_congr (b : Board) {r c r' c' : Int}
    (hr : r.toNat = r'.toNat) (hc : c.toNat = c'.toNat) :
    b.get_cell r c = b.get_cell r' c' := by
  simp [Board.get_cell, hr, hc]

/-- Cells other than the written one are untouched by `set_cell`. -/
theorem get_cell_set_cell_ne (b : Board) (r0 c0 l v : Int) {r c : Int}
    (h : r.toNat ≠ r0.toNat ∨ c.toNat ≠ c0.toNat) :
    (b.set_cell r0 c0 l v).get_cell r c = b.get_cell r c := by
  unfold Board.set_cell
  split
  · simp only [Board.get_cell, getD_set_formula]
    rcases h with h | h
    · simp [h]
    · split
      · next hrow =>
        rw [getD_set_formula]
        simp [h, hrow.1]
      · rfl
  · rfl

/-- A layer-0 write never changes any layer-2 slot. -/
theorem set_cell_layer0_snd (b : Board) (r0 c0 v r c : Int) :
    ((b.set_cell r0 c0 0 v).get_cell r c).2 = (b.get_cell r c).2 := by
  by_cases h : r.toNat = r0.toNat ∧ c.toNat = c0.toNat
  · unfold Board.set_cell
    split
    · simp only [Board.get_cell, getD_set_formula, h.1, h.2]
      split
      · next hrow =>
        rw [getD_set_formula]
        split
        · next hcol => simp
        · rfl
      · rfl
    · rfl
  · rw [get_cell_set_cell_ne]
    tauto

/-- A layer-1 write never changes any layer-1 slot. -/
theorem set_cell_layer1_fst (b : Board) (r0 c0 v r c : Int) :
    ((b.set_cell r0 c0 1 v).get_cell r c).1 = (b.get_cell r c).1 := by
  by_cases h : r.toNat = r0.toNat ∧ c.toNat = c0.toNat
  · unfold Board.set_cell
    split
    · simp only [Board.get_cell, getD_set_formula, h.1, h.2]
      split
      · next hrow =>
        rw [getD_set_formula]
        split
        · next hcol => simp
        · rfl
      · rfl
    · rfl
  · rw [get_cell_set_cell_ne]
    tauto

/-- A write with a layer outside `{0,1}` is a no-op (the source would
raise there). -/
theorem set_cell_layer_invalid (b : Board) (r0 c0 l v : Int)
    (h0 : l ≠ 0) (h1 : l ≠ 1) : b.set_cell r0 c0 l v = b := by
  simp [Board.set_cell, h0, h1]

/-- The written cell of an in-grid `set_cell`. -/
theorem get_cell_set_cell_eq (b : Board) (r0 c0 l v : Int)
    (hg : b.is_valid_position r0 c0 = true) (hl : l = 0 ∨ l = 1)
    (hv : v = 0 ∨ v = 1 ∨ v = -1)
    (hr : r0.toNat < b.cells.length)
    (hc : c0.toNat < (b.cells.getD r0.toNat []).length) :
    (b.set_cell r0 c0 l v).get_cell r0 c0 =
      (if l = 0 then (v, (b.get_cell r0 c0).2) else ((b.get_cell r0 c0).1, v)) := by
  unfold Board.set_cell
  rw [if_pos ⟨hg, hl, hv⟩]
  simp only [Board.get_cell, getD_set_formula, hr, hc, and_self, if_true, if_pos]

/-- `Board.empty` is all-empty. -/
theorem get_cell_empty (n : Nat) (r c : Int) :
    (Board.empty n).get_cell r c = ((0 : Int), (0 : Int)) := by
  unfold Board.empty Board.get_cell
  simp only [List.getD_eq_getElem?_getD, List.getElem?_replicate]
  by_cases hr : r.toNat < n
  · by_cases hc : c.toNat < n <;> simp [hr, hc]
  · simp [hr]

/-- `Board.empty` is well-formed. -/
theorem WF_empty (n : Nat) : Board.WF (Board.empty n) := by
  constructor
  · simp [Board.empty]
  · intro row hrow
    simp only [Board.empty] at hrow
    rw [List.eq_of_mem_replicate hrow]
    simp [Board.empty]

/-- `set_cell` preserves well-formedness. -/
theorem WF_set_cell {b : Board} (h : Board.WF b) (r0 c0 l v : Int) :
    Board.WF (b.set_cell r0 c0 l v) := by
  by_cases hg : (b.is_valid_position r0 c0 = true ∧ (l = 0 ∨ l = 1) ∧
      (v = 0 ∨ v = 1 ∨ v = -1))
  · rw [Board.set_cell, if_pos hg]
    refine ⟨by simpa using h.1, ?_⟩
    intro row hrow
    simp only at hrow
    by_cases hlen : r0.toNat < b.cells.length
    · rcases List.mem_or_eq_of_mem_set hrow with hmem | heq
      · exact h.2 row hmem
      · subst heq
        rw [List.length_set, List.getD_eq_getElem _ _ hlen]
        exact h.2 _ (List.getElem_mem hlen)
    · rw [List.set_eq_of_length_le (Nat.le_of_not_lt hlen)] at hrow
      exact h.2 row hrow
  · rw [Board.set_cell, if_neg hg]
    exact h

end WataruTo

namespace WataruTo

/-!
## Extracting per-cell facts from validator acceptance
-/

theorem mem_sortedPath (l : List Position) (p : Position) :
    p ∈ sortedPath l ↔ p ∈ l := by
  unfold sortedPath
  split <;> exact mem_pySortBy _ _ _

theorem sortedPath_length (l : List Position) :
    (sortedPath l).length = l.length := by
  unfold sortedPath
  split <;> exact pySortBy_length _ _

/-- `set_cell` never changes the stored size. -/
theorem set_cell_size (b : Board) (r0 c0 l v : Int) :
    (b.set_cell r0 c0 l v).size = b.size := by
  unfold Board.set_cell; split <;> rfl

theorem WF_row_length {b : Board} (h : Board.WF b) {i : Nat}
    (hi : i < b.cells.length) : (b.cells.getD i []).length = b.size := by
  rw [List.getD_eq_getElem _ _ hi]
  exact h.2 _ (List.getElem_mem hi)

theorem cellCheck_bounds {b : Board} {player fl : Int} {isF : Bool} {pos : Position}
    (h : cellCheck b player fl isF pos = true) :
    0 ≤ pos.row ∧ pos.row < (b.size : Int) ∧ 0 ≤ pos.col ∧ pos.col < (b.size : Int) := by
  by_cases h1 : pos.row < 0 ∨ (b.size : Int) ≤ pos.row
  · simp [cellCheck, h1] at h
  · by_cases h2 : pos.col < 0 ∨ (b.size : Int) ≤ pos.col
    · simp [cellCheck, h1, h2] at h
    · push_neg at h1 h2
      omega

theorem cellCheck_l2 {b : Board} {player fl : Int} {isF : Bool} {pos : Position}
    (h : cellCheck b player fl isF pos = true) :
    (b.get_cell pos.row pos.col).2 = 0 := by
  have hb := cellCheck_bounds h
  have h1 : ¬ (pos.row < 0 ∨ (b.size : Int) ≤ pos.row) := by omega
  have h2 : ¬ (pos.col < 0 ∨ (b.size : Int) ≤ pos.col) := by omega
  by_cases h3 : (b.get_cell pos.row pos.col).2 = 0
  · exact h3
  · simp [cellCheck, h1, h2, h3] at h

theorem cellCheck_first_layer1 {b : Board} {player fl : Int} {pos : Position}
    (h : cellCheck b player fl true pos = true) (hl : pos.layer = 1) :
    (b.get_cell pos.row pos.col).1 = player := by
  have hb := cellCheck_bounds h
  have h1 : ¬ (pos.row < 0 ∨ (b.size : Int) ≤ pos.row) := by omega
  have h2 : ¬ (pos.col < 0 ∨ (b.size : Int) ≤ pos.col) := by omega
  have h3 := cellCheck_l2 h
  simp [cellCheck, h1, h2, h3, hl] at h
  exact h

theorem cellCheck_rest_mode0 {b : Board} {player : Int} {pos : Position}
    (h : cellCheck b player 0 false pos = true) :
    pos.layer = 0 ∧ (b.get_cell pos.row pos.col).1 = 0 := by
  have hb := cellCheck_bounds h
  have h1 : ¬ (pos.row < 0 ∨ (b.size : Int) ≤ pos.row) := by omega
  have h2 : ¬ (pos.col < 0 ∨ (b.size : Int) ≤ pos.col) := by omega
  have h3 := cellCheck_l2 h
  simpa [cellCheck, h1, h2, h3] using h

theorem cellCheck_rest_mode1 {b : Board} {player fl : Int} {pos : Position}
    (h : cellCheck b player fl false pos = true) (hfl : fl ≠ 0) :
    pos.layer = 1 ∧
      ((b.get_cell pos.row pos.col).1 = 0 ∨ (b.get_cell pos.row pos.col).1 = player) := by
  have hb := cellCheck_bounds h
  have h1 : ¬ (pos.row < 0 ∨ (b.size : Int) ≤ pos.row) := by omega
  have h2 : ¬ (pos.col < 0 ∨ (b.size : Int) ≤ pos.col) := by omega
  have h3 := cellCheck_l2 h
  simpa [cellCheck, h1, h2, h3, hfl] using h

/-- Acceptance decomposes into the per-cell checks of the sorted path. -/
theorem validator_sorted_cons {m : Move} {b : Board} {b1 bN : PlayerBlocks}
    (h : MoveValidator.is_valid_move m b b1 bN = true) :
    ∃ first rest, sortedPath m.path = first :: rest ∧
      cellCheck b m.player first.layer true first = true ∧
      ∀ pos ∈ rest, cellCheck b m.player first.layer false pos = true := by
  have hvp := validator_validate_path h
  have hlen := validate_path_length hvp
  have hslen : (sortedPath m.path).length = m.path.length := sortedPath_length _
  cases heq : sortedPath m.path with
  | nil =>
    rw [heq] at hslen
    simp at hslen
    omega
  | cons first rest =>
    refine ⟨first, rest, rfl, ?_⟩
    unfold MoveValidator.is_valid_move at h
    rw [heq] at h
    simp only [hvp, not_true, Bool.false_eq_true, if_false] at h
    split at h
    · simp at h
    · split at h
      · simp at h
      · simp only [Bool.and_eq_true, List.all_eq_true] at h
        exact ⟨h.1.1, fun pos hpos => h.1.2 pos hpos⟩

/-- Per-position facts on the (unsorted) path of an accepted move. -/
theorem validator_pos_facts {m : Move} {b : Board} {b1 bN : PlayerBlocks}
    (h : MoveValidator.is_valid_move m b b1 bN = true) :
    ∀ pos ∈ m.path,
      (0 ≤ pos.row ∧ pos.row < (b.size : Int) ∧ 0 ≤ pos.col ∧ pos.col < (b.size : Int)) ∧
      (b.get_cell pos.row pos.col).2 = 0 ∧
      (pos.layer = 1 →
        (b.get_cell pos.row pos.col).1 = 0 ∨ (b.get_cell pos.row pos.col).1 = m.player) := by
  obtain ⟨first, rest, heq, hfirst, hrest⟩ := validator_sorted_cons h
  intro pos hpos
  have hmem : pos ∈ sortedPath m.path := (mem_sortedPath _ pos).mpr hpos
  rw [heq] at hmem
  rcases List.mem_cons.mp hmem with rfl | hB
  · exact ⟨cellCheck_bounds hfirst, cellCheck_l2 hfirst,
      fun h1 => Or.inr (cellCheck_first_layer1 hfirst h1)⟩
  · have hc := hrest pos hB
    refine ⟨cellCheck_bounds hc, cellCheck_l2 hc, fun h1 => ?_⟩
    by_cases hfl : first.layer = 0
    · rw [hfl] at hc
      exact absurd h1 (by simp [(cellCheck_rest_mode0 hc).1])
    · exact (cellCheck_rest_mode1 hc hfl).2

/-- The path of an accepted move lies wholly on layer 1, or wholly off
layer 1 (so a single move never mixes base and bridge writes). -/
theorem validator_layer_homog {m : Move} {b : Board} {b1 bN : PlayerBlocks}
    (h : MoveValidator.is_valid_move m b b1 bN = true) :
    (∀ pos ∈ m.path, pos.layer = 0) ∨ (∀ pos ∈ m.path, pos.layer ≠ 0) := by
  obtain ⟨first, rest, heq, hfirst, hrest⟩ := validator_sorted_cons h
  by_cases hfl : first.layer = 0
  · left
    intro pos hpos
    have hmem : pos ∈ sortedPath m.path := (mem_sortedPath _ pos).mpr hpos
    rw [heq] at hmem
    rcases List.mem_cons.mp hmem with rfl | hB
    · exact hfl
    · exact (cellCheck_rest_mode0 (hfl ▸ hrest pos hB)).1
  · right
    intro pos hpos
    have hmem : pos ∈ sortedPath m.path := (mem_sortedPath _ pos).mpr hpos
    rw [heq] at hmem
    rcases List.mem_cons.mp hmem with rfl | hB
    · exact hfl
    · rw [(cellCheck_rest_mode1 (hrest pos hB) hfl).1]
      decide

end WataruTo

namespace WataruTo

/-!
## Preservation of the layer invariant by accepted moves
-/

/-- A fold of base-layer writes preserves the layer invariant when the
written cells' layer 2 is empty. -/
theorem foldA (v : Int) :
    ∀ (path : List Position) (b : Board),
      (∀ pos ∈ path, pos.layer = 0) →
      (∀ pos ∈ path, (b.get_cell pos.row pos.col).2 = 0) →
      LayerInv b →
      LayerInv (path.foldl (fun bd pos => bd.set_cell pos.row pos.col pos.layer v) b) := by
  intro path
  induction path with
  | nil => intro b _ _ h; exact h
  | cons hd tl ih =>
    intro b hlayer hl2 hinv
    simp only [List.foldl_cons]
    have hhd : hd.layer = 0 := hlayer hd (by simp)
    rw [hhd]
    apply ih
    · intro pos hpos; exact hlayer pos (by simp [hpos])
    · intro pos hpos
      rw [set_cell_layer0_snd]
      exact hl2 pos (by simp [hpos])
    · intro r c h2
      rw [set_cell_layer0_snd] at h2
      by_cases hcell : r.toNat = hd.row.toNat ∧ c.toNat = hd.col.toNat
      · exact absurd ((get_cell_congr b hcell.1 hcell.2).symm ▸ hl2 hd (by simp)) h2
      · rw [set_cell_layer0_snd, get_cell_set_cell_ne b _ _ _ _ (not_and_or.mp hcell)]
        exact hinv r c h2

/-- A fold of bridge-layer writes of a colour `v ∈ {1, -1}` preserves
the layer invariant when the written cells' layer 1 is empty or `v`. -/
theorem foldB (v : Int) (hv01 : v = 1 ∨ v = -1) :
    ∀ (path : List Position) (b : Board),
      Board.WF b →
      (∀ pos ∈ path, pos.layer ≠ 0) →
      (∀ pos ∈ path, pos.layer = 1 →
        0 ≤ pos.row ∧ pos.row < (b.size : Int) ∧ 0 ≤ pos.col ∧ pos.col < (b.size : Int)) →
      (∀ pos ∈ path, pos.layer = 1 →
        (b.get_cell pos.row pos.col).1 = 0 ∨ (b.get_cell pos.row pos.col).1 = v) →
      LayerInv b →
      LayerInv (path.foldl (fun bd pos => bd.set_cell pos.row pos.col pos.layer v) b) := by
  intro path
  induction path with
  | nil => intro b _ _ _ _ h; exact h
  | cons hd tl ih =>
    intro b hWF hlayer hbounds hl1 hinv
    simp only [List.foldl_cons]
    by_cases hhd : hd.layer = 1
    · rw [hhd]
      have hbnd := hbounds hd (by simp) hhd
      have hrn : hd.row.toNat < b.cells.length := by rw [hWF.1]; omega
      have hcn : hd.col.toNat < (b.cells.getD hd.row.toNat []).length := by
        rw [WF_row_length hWF hrn]; omega
      have hvalid : b.is_valid_position hd.row hd.col = true := by
        simp only [Board.is_valid_position, decide_eq_true_eq]
        exact ⟨hbnd.1, hbnd.2.1, hbnd.2.2.1, hbnd.2.2.2⟩
      have hwrite := get_cell_set_cell_eq b hd.row hd.col 1 v hvalid (Or.inr rfl)
        (by rcases hv01 with h | h <;> simp [h]) hrn hcn
      simp only [one_ne_zero, if_false] at hwrite
      apply ih
      · exact WF_set_cell hWF _ _ _ _
      · intro pos hpos; exact hlayer pos (by simp [hpos])
      · intro pos hpos h1
        rw [set_cell_size]
        exact hbounds pos (by simp [hpos]) h1
      · intro pos hpos h1
        rw [set_cell_layer1_fst]
        exact hl1 pos (by simp [hpos]) h1
      · intro r c h2
        by_cases hcell : r.toNat = hd.row.toNat ∧ c.toNat = hd.col.toNat
        · rw [get_cell_congr _ hcell.1 hcell.2] at h2 ⊢
          rw [hwrite] at h2 ⊢
          have := hl1 hd (by simp) hhd
          rcases this with h0 | hv
          · exact Or.inl h0
          · exact Or.inr hv
        · rw [get_cell_set_cell_ne b _ _ _ _ (not_and_or.mp hcell)] at h2 ⊢
          exact hinv r c h2
    · rw [set_cell_layer_invalid b _ _ _ _ (hlayer hd (by simp)) hhd]
      apply ih b hWF
      · intro pos hpos; exact hlayer pos (by simp [hpos])
      · intro pos hpos; exact hbounds pos (by simp [hpos])
      · intro pos hpos; exact hl1 pos (by simp [hpos])
      · exact hinv

/-- Any fold of `set_cell` writes preserves well-formedness. -/
theorem WF_foldSet (v : Int) (path : List Position) :
    ∀ b : Board, Board.WF b →
      Board.WF (path.foldl (fun bd pos => bd.set_cell pos.row pos.col pos.layer v) b) := by
  induction path with
  | nil => intro b h; exact h
  | cons hd tl ih =>
    intro b h
    simp only [List.foldl_cons]
    exact ih _ (WF_set_cell h _ _ _ _)

/-- The invariant bundle carried along a play: a well-formed board, the
layer invariant, and a proper player to move. -/
theorem stepMove_inv {g : GameState} {m : Move}
    (h : Board.WF g.board ∧ LayerInv g.board ∧
      (g.current_player = 1 ∨ g.current_player = -1)) :
    Board.WF (stepMove g m).board ∧ LayerInv (stepMove g m).board ∧
      ((stepMove g m).current_player = 1 ∨ (stepMove g m).current_player = -1) := by
  obtain ⟨hWF, hinv, hcur⟩ := h
  by_cases hv : g.is_valid_move m
  · obtain ⟨pb', hu⟩ := use_block_of_valid hv
    have hval := is_valid_move_validator hv
    have hplayer : m.player = g.current_player := is_valid_move_player hv
    have hboard := apply_move_board hv hu
    have hfacts := validator_pos_facts hval
    constructor
    · rw [stepMove, hboard]
      exact WF_foldSet _ _ _ hWF
    constructor
    · rw [stepMove, hboard]
      rcases validator_layer_homog hval with hall0 | hall1
      · apply foldA
        · exact hall0
        · intro pos hpos; exact (hfacts pos hpos).2.1
        · exact hinv
      · apply foldB m.player (hplayer ▸ hcur)
        · exact hWF
        · exact hall1
        · intro pos hpos _; exact (hfacts pos hpos).1
        · intro pos hpos h1; exact (hfacts pos hpos).2.2 h1
        · exact hinv
    · rw [stepMove, apply_move_current_player hv hu]
      rcases hcur with h1 | h1 <;> rw [h1] <;> split <;> simp
  · rw [stepMove, apply_move_rejected g m (by simpa using hv)]
    exact ⟨hWF, hinv, hcur⟩

/-- The bundle holds along any sequence of `apply_move` calls. -/
theorem applyAll_inv (n : Nat) (ms : List Move) :
    Board.WF (applyAll (GameState.init n) ms).board ∧
      LayerInv (applyAll (GameState.init n) ms).board ∧
      ((applyAll (GameState.init n) ms).current_player = 1 ∨
        (applyAll (GameState.init n) ms).current_player = -1) := by
  suffices H : ∀ (ms : List Move) (g : GameState),
      Board.WF g.board ∧ LayerInv g.board ∧
        (g.current_player = 1 ∨ g.current_player = -1) →
      Board.WF (applyAll g ms).board ∧ LayerInv (applyAll g ms).board ∧
        ((applyAll g ms).current_player = 1 ∨ (applyAll g ms).current_player = -1) by
    apply H
    refine ⟨WF_empty n, ?_, Or.inl rfl⟩
    intro r c h2
    have hb : (GameState.init n).board = Board.empty n := rfl
    rw [hb, get_cell_empty] at h2
    simp at h2
  intro ms
  induction ms with
  | nil => intro g h; exact h
  | cons m tl ih =>
    intro g h
    exact ih _ (stepMove_inv h)

/-- C1 (amended): on every board reachable from the empty board through
`apply_move` (accepted calls mutate, rejected ones do not), a non-zero
layer-2 value sits above a layer-1 slot that is empty or holds the same
colour — a bridge may span empty base cells, but never rests on the
opponent's base tile.  (The original claim, that layer 1 must be
non-zero underneath, fails: see `bridge_rests_on_empty_counterexample`.) -/
theorem layer2_never_on_opponent (n : Nat) (ms : List Move) :
    LayerInv (applyAll (GameState.init n) ms).board :=
  (applyAll_inv n ms).2.1

end WataruTo

namespace WataruTo

/-!
## Board restoration: apply followed by undo
-/

/-- First-cell extraction for a base-mode start. -/
theorem cellCheck_first_layer0 {b : Board} {player fl : Int} {pos : Position}
    (h : cellCheck b player fl true pos = true) (hl : pos.layer = 0) :
    (b.get_cell pos.row pos.col).1 = 0 := by
  have hb := cellCheck_bounds h
  have h1 : ¬ (pos.row < 0 ∨ (b.size : Int) ≤ pos.row) := by omega
  have h2 : ¬ (pos.col < 0 ∨ (b.size : Int) ≤ pos.col) := by omega
  have h3 := cellCheck_l2 h
  simpa [cellCheck, h1, h2, h3, hl] using h

/-- In a base-mode accepted move every path cell's layer 1 is empty. -/
theorem validator_base_l1 {m : Move} {b : Board} {b1 bN : PlayerBlocks}
    (h : MoveValidator.is_valid_move m b b1 bN = true)
    (hall0 : ∀ pos ∈ m.path, pos.layer = 0) :
    ∀ pos ∈ m.path, (b.get_cell pos.row pos.col).1 = 0 := by
  obtain ⟨first, rest, heq, hfirst, hrest⟩ := validator_sorted_cons h
  have hfl : first.layer = 0 :=
    hall0 first ((mem_sortedPath _ first).mp (heq ▸ List.mem_cons_self _ _))
  intro pos hpos
  have hmem : pos ∈ sortedPath m.path := (mem_sortedPath _ pos).mpr hpos
  rw [heq] at hmem
  rcases List.mem_cons.mp hmem with rfl | hB
  · exact cellCheck_first_layer0 hfirst hfl
  · exact (cellCheck_rest_mode0 (hfl ▸ hrest pos hB)).2

/-- Folding `set_cell` preserves the stored size. -/
theorem fold_size (v : Int) (path : List Position) :
    ∀ b : Board,
      (path.foldl (fun bd pos => bd.set_cell pos.row pos.col pos.layer v) b).size = b.size := by
  induction path with
  | nil => intro b; rfl
  | cons hd tl ih =>
    intro b
    simp only [List.foldl_cons]
    rw [ih, set_cell_size]

/-- Base-layer folds leave every layer-2 slot alone. -/
theorem fold_layer0_preserves_snd (v : Int) (path : List Position)
    (hall : ∀ pos ∈ path, pos.layer = 0) :
    ∀ (b : Board) (r c : Int),
      ((path.foldl (fun bd pos => bd.set_cell pos.row pos.col pos.layer v) b).get_cell r c).2 =
        (b.get_cell r c).2 := by
  induction path with
  | nil => intro b r c; rfl
  | cons hd tl ih =>
    intro b r c
    simp only [List.foldl_cons]
    rw [ih (fun pos hpos => hall pos (by simp [hpos])), hall hd (by simp),
      set_cell_layer0_snd]

/-- Bridge-layer folds leave every layer-1 slot alone. -/
theorem fold_layer1_preserves_fst (v : Int) (path : List Position)
    (hall : ∀ pos ∈ path, pos.layer = 1) :
    ∀ (b : Board) (r c : Int),
      ((path.foldl (fun bd pos => bd.set_cell pos.row pos.col pos.layer v) b).get_cell r c).1 =
        (b.get_cell r c).1 := by
  induction path with
  | nil => intro b r c; rfl
  | cons hd tl ih =>
    intro b r c
    simp only [List.foldl_cons]
    rw [ih (fun pos hpos => hall pos (by simp [hpos])), hall hd (by simp),
      set_cell_layer1_fst]

/-- The layer-1 slots after a base-mode fold: written cells hold `v`,
the rest is unchanged. -/
theorem fold_write_fst (v : Int) (hv : v = 0 ∨ v = 1 ∨ v = -1) (path : List Position) :
    ∀ b : Board, Board.WF b →
      (∀ pos ∈ path, pos.layer = 0) →
      (∀ pos ∈ path, 0 ≤ pos.row ∧ pos.row < (b.size : Int) ∧
        0 ≤ pos.col ∧ pos.col < (b.size : Int)) →
      ∀ r c : Int,
        ((path.foldl (fun bd pos => bd.set_cell pos.row pos.col pos.layer v) b).get_cell r c).1 =
          if ∃ pos ∈ path, pos.row.toNat = r.toNat ∧ pos.col.toNat = c.toNat then v
          else (b.get_cell r c).1 := by
  induction path with
  | nil => intro b _ _ _ r c; simp
  | cons hd tl ih =>
    intro b hWF hall hbounds r c
    simp only [List.foldl_cons]
    have hhd : hd.layer = 0 := hall hd (by simp)
    have hbnd := hbounds hd (by simp)
    have hrn : hd.row.toNat < b.cells.length := by rw [hWF.1]; omega
    have hcn : hd.col.toNat < (b.cells.getD hd.row.toNat []).length := by
      rw [WF_row_length hWF hrn]; omega
    have hvalid : b.is_valid_position hd.row hd.col = true := by
      simp only [Board.is_valid_position, decide_eq_true_eq]
      exact ⟨hbnd.1, hbnd.2.1, hbnd.2.2.1, hbnd.2.2.2⟩
    have hwrite := get_cell_set_cell_eq b hd.row hd.col 0 v hvalid (Or.inl rfl) hv hrn hcn
    simp at hwrite
    rw [hhd]
    rw [ih _ (WF_set_cell hWF _ _ _ _) (fun pos hpos => hall pos (by simp [hpos]))
      (fun pos hpos => by rw [set_cell_size]; exact hbounds pos (by simp [hpos]))]
    by_cases htl : ∃ pos ∈ tl, pos.row.toNat = r.toNat ∧ pos.col.toNat = c.toNat
    · rw [if_pos htl, if_pos (by simpa using Or.inr htl)]
    · rw [if_neg htl]
      by_cases hhdm : hd.row.toNat = r.toNat ∧ hd.col.toNat = c.toNat
      · rw [get_cell_congr _ hhdm.1.symm hhdm.2.symm, hwrite]
        have hyes : ∃ pos ∈ hd :: tl, pos.row.toNat = r.toNat ∧ pos.col.toNat = c.toNat :=
          ⟨hd, List.mem_cons_self _ _, hhdm⟩
        rw [if_pos hyes]
      · rw [get_cell_set_cell_ne b _ _ _ _ (by tauto)]
        have hno : ¬ ∃ pos ∈ hd :: tl, pos.row.toNat = r.toNat ∧ pos.col.toNat = c.toNat := by
          rintro ⟨pos, hmem, hp⟩
          rcases List.mem_cons.mp hmem with rfl | hmem2
          · exact hhdm hp
          · exact htl ⟨pos, hmem2, hp⟩
        rw [if_neg hno]

/-- The layer-2 slots after a bridge-mode fold: written cells hold `v`,
the rest is unchanged. -/
theorem fold_write_snd (v : Int) (hv : v = 0 ∨ v = 1 ∨ v = -1) (path : List Position) :
    ∀ b : Board, Board.WF b →
      (∀ pos ∈ path, pos.layer = 1) →
      (∀ pos ∈ path, 0 ≤ pos.row ∧ pos.row < (b.size : Int) ∧
        0 ≤ pos.col ∧ pos.col < (b.size : Int)) →
      ∀ r c : Int,
        ((path.foldl (fun bd pos => bd.set_cell pos.row pos.col pos.layer v) b).get_cell r c).2 =
          if ∃ pos ∈ path, pos.row.toNat = r.toNat ∧ pos.col.toNat = c.toNat then v
          else (b.get_cell r c).2 := by
  induction path with
  | nil => intro b _ _ _ r c; simp
  | cons hd tl ih =>
    intro b hWF hall hbounds r c
    simp only [List.foldl_cons]
    have hhd : hd.layer = 1 := hall hd (by simp)
    have hbnd := hbounds hd (by simp)
    have hrn : hd.row.toNat < b.cells.length := by rw [hWF.1]; omega
    have hcn : hd.col.toNat < (b.cells.getD hd.row.toNat []).length := by
      rw [WF_row_length hWF hrn]; omega
    have hvalid : b.is_valid_position hd.row hd.col = true := by
      simp only [Board.is_valid_position, decide_eq_true_eq]
      exact ⟨hbnd.1, hbnd.2.1, hbnd.2.2.1, hbnd.2.2.2⟩
    have hwrite := get_cell_set_cell_eq b hd.row hd.col 1 v hvalid (Or.inr rfl) hv hrn hcn
    simp at hwrite
    rw [hhd]
    rw [ih _ (WF_set_cell hWF _ _ _ _) (fun pos hpos => hall pos (by simp [hpos]))
      (fun pos hpos => by rw [set_cell_size]; exact hbounds pos (by simp [hpos]))]
    by_cases htl : ∃ pos ∈ tl, pos.row.toNat = r.toNat ∧ pos.col.toNat = c.toNat
    · rw [if_pos htl, if_pos (by simpa using Or.inr htl)]
    · rw [if_neg htl]
      by_cases hhdm : hd.row.toNat = r.toNat ∧ hd.col.toNat = c.toNat
      · rw [get_cell_congr _ hhdm.1.symm hhdm.2.symm, hwrite]
        have hyes : ∃ pos ∈ hd :: tl, pos.row.toNat = r.toNat ∧ pos.col.toNat = c.toNat :=
          ⟨hd, List.mem_cons_self _ _, hhdm⟩
        rw [if_pos hyes]
      · rw [get_cell_set_cell_ne b _ _ _ _ (by tauto)]
        have hno : ¬ ∃ pos ∈ hd :: tl, pos.row.toNat = r.toNat ∧ pos.col.toNat = c.toNat := by
          rintro ⟨pos, hmem, hp⟩
          rcases List.mem_cons.mp hmem with rfl | hmem2
          · exact hhdm hp
          · exact htl ⟨pos, hmem2, hp⟩
        rw [if_neg hno]

end WataruTo

namespace WataruTo

theorem board_eq_of {a b : Board} (h1 : a.size = b.size) (h2 : a.cells = b.cells) :
    a = b := by
  cases a; cases b; simp_all

theorem cells_eq_of_get {a b : Board} (hwa : Board.WF a) (hwb : Board.WF b)
    (hs : a.size = b.size)
    (h : ∀ r c : Int, a.get_cell r c = b.get_cell r c) : a.cells = b.cells := by
  apply List.ext_getElem
  · rw [hwa.1, hwb.1, hs]
  · intro i h1 h2
    apply List.ext_getElem
    · rw [hwa.2 _ (List.getElem_mem h1), hwb.2 _ (List.getElem_mem h2), hs]
    · intro j hj1 hj2
      have ha : a.get_cell (i : Int) (j : Int) = a.cells[i][j] := by
        simp only [Board.get_cell, Int.toNat_ofNat]
        rw [List.getD_eq_getElem _ _ h1, List.getD_eq_getElem _ _ hj1]
      have hb : b.get_cell (i : Int) (j : Int) = b.cells[i][j] := by
        simp only [Board.get_cell, Int.toNat_ofNat]
        rw [List.getD_eq_getElem _ _ h2, List.getD_eq_getElem _ _ hj2]
      rw [← ha, ← hb, h i j]

/-- Undoing a just-applied legal move restores the board exactly. -/
theorem roundtrip_board {g : GameState} {m : Move} {pb' : PlayerBlocks}
    (hWF : Board.WF g.board) (hp : m.player = 1 ∨ m.player = -1)
    (hlayers : ∀ pos ∈ m.path, pos.layer = 0 ∨ pos.layer = 1)
    (hv : g.is_valid_move m = true)
    (hu : (g.blocksOf m.player).use_block m.block_size = some pb') :
    m.path.foldl (fun bd pos => bd.set_cell pos.row pos.col pos.layer 0)
      ((g.apply_move m).2.board) = g.board := by
  rw [apply_move_board hv hu]
  have hval := is_valid_move_validator hv
  have hfacts := validator_pos_facts hval
  have hbounds : ∀ pos ∈ m.path, 0 ≤ pos.row ∧ pos.row < (g.board.size : Int) ∧
      0 ≤ pos.col ∧ pos.col < (g.board.size : Int) := fun pos hpos => (hfacts pos hpos).1
  have hWF1 : Board.WF (m.path.foldl
      (fun bd pos => bd.set_cell pos.row pos.col pos.layer m.player) g.board) :=
    WF_foldSet _ _ _ hWF
  have hsize1 : (m.path.foldl
      (fun bd pos => bd.set_cell pos.row pos.col pos.layer m.player) g.board).size =
      g.board.size := fold_size _ _ _
  have hvp : m.player = 0 ∨ m.player = 1 ∨ m.player = -1 := Or.inr hp
  apply board_eq_of
  · rw [fold_size, fold_size]
  · apply cells_eq_of_get (WF_foldSet _ _ _ hWF1) hWF (by rw [fold_size, hsize1])
    intro r c
    rcases validator_layer_homog hval with hall0 | hall1'
    · -- base mode: layer 2 untouched, layer 1 written then zeroed
      have hl1zero := validator_base_l1 hval hall0
      have hfst := fold_write_fst 0 (Or.inl rfl) m.path _ hWF1
        hall0 (fun pos hpos => by rw [hsize1]; exact hbounds pos hpos) r c
      have hfst1 := fold_write_fst m.player hvp m.path _ hWF hall0 hbounds r c
      have hsnd := fold_layer0_preserves_snd 0 m.path hall0
        (m.path.foldl (fun bd pos => bd.set_cell pos.row pos.col pos.layer m.player) g.board) r c
      have hsnd1 := fold_layer0_preserves_snd m.player m.path hall0 g.board r c
      refine Prod.ext ?_ (by rw [hsnd, hsnd1])
      rw [hfst]
      by_cases hex : ∃ pos ∈ m.path, pos.row.toNat = r.toNat ∧ pos.col.toNat = c.toNat
      · rw [if_pos hex]
        obtain ⟨pos, hpos, hmatch⟩ := hex
        rw [← get_cell_congr g.board hmatch.1 hmatch.2]
        exact (hl1zero pos hpos).symm
      · rw [if_neg hex, hfst1, if_neg hex]
    · -- bridge mode: layer 1 untouched, layer 2 written then zeroed
      have hall1 : ∀ pos ∈ m.path, pos.layer = 1 :=
        fun pos hpos => (hlayers pos hpos).resolve_left (hall1' pos hpos)
      have hl2zero : ∀ pos ∈ m.path, (g.board.get_cell pos.row pos.col).2 = 0 :=
        fun pos hpos => (hfacts pos hpos).2.1
      have hsnd := fold_write_snd 0 (Or.inl rfl) m.path _ hWF1
        hall1 (fun pos hpos => by rw [hsize1]; exact hbounds pos hpos) r c
      have hsnd1 := fold_write_snd m.player hvp m.path _ hWF hall1 hbounds r c
      have hfst := fold_layer1_preserves_fst 0 m.path hall1
        (m.path.foldl (fun bd pos => bd.set_cell pos.row pos.col pos.layer m.player) g.board) r c
      have hfst1 := fold_layer1_preserves_fst m.player m.path hall1 g.board r c
      refine Prod.ext (by rw [hfst, hfst1]) ?_
      rw [hsnd]
      by_cases hex : ∃ pos ∈ m.path, pos.row.toNat = r.toNat ∧ pos.col.toNat = c.toNat
      · rw [if_pos hex]
        obtain ⟨pos, hpos, hmatch⟩ := hex
        rw [← get_cell_congr g.board hmatch.1 hmatch.2]
        exact (hl2zero pos hpos).symm
      · rw [if_neg hex, hsnd1, if_neg hex]

end WataruTo

namespace WataruTo

theorem setBlocks_blocks1_one (g : GameState) (pb : PlayerBlocks) :
    (g.setBlocks 1 pb).blocks1 = pb := by simp [GameState.setBlocks]

theorem setBlocks_blocksN_one (g : GameState) (pb : PlayerBlocks) :
    (g.setBlocks 1 pb).blocksN = g.blocksN := by simp [GameState.setBlocks]

theorem setBlocks_blocks1_neg (g : GameState) (pb : PlayerBlocks) :
    (g.setBlocks (-1) pb).blocks1 = g.blocks1 := by
  simp [GameState.setBlocks]

theorem setBlocks_blocksN_neg (g : GameState) (pb : PlayerBlocks) :
    (g.setBlocks (-1) pb).blocksN = pb := by
  simp [GameState.setBlocks]

theorem apply_move_blocks1 {g : GameState} {m : Move} {pb' : PlayerBlocks}
    (hv : g.is_valid_move m = true)
    (hu : (g.blocksOf m.player).use_block m.block_size = some pb') :
    (g.apply_move m).2.blocks1 = (g.setBlocks m.player pb').blocks1 := by
  simp [GameState.apply_move, hv, hu]

theorem apply_move_blocksN {g : GameState} {m : Move} {pb' : PlayerBlocks}
    (hv : g.is_valid_move m = true)
    (hu : (g.blocksOf m.player).use_block m.block_size = some pb') :
    (g.apply_move m).2.blocksN = (g.setBlocks m.player pb').blocksN := by
  simp [GameState.apply_move, hv, hu]

/-- Re-incrementing the drawn block restores the inventory. -/
theorem use_block_restore {pb pb' : PlayerBlocks} {size : Nat}
    (hu : pb.use_block size = some pb') :
    (if size = 4 then { pb' with size4 := pb'.size4 + 1 }
     else if size = 5 then { pb' with size5 := pb'.size5 + 1 }
     else pb') = pb := by
  unfold PlayerBlocks.use_block at hu
  by_cases h3 : size = 3
  · simp only [h3] at hu ⊢
    simp at hu
    simp [← hu]
  · by_cases h4 : size = 4
    · simp only [h3, h4, if_false, if_true, if_pos] at hu ⊢
      by_cases hs : 0 < pb.size4
      · rw [if_pos hs] at hu
        have heq := Option.some.inj hu
        subst heq
        cases pb
        simp [PlayerBlocks.mk.injEq]
      · rw [if_neg hs] at hu
        cases hu
    · by_cases h5 : size = 5
      · simp only [h3, h4, h5, if_false, if_true] at hu ⊢
        by_cases hs : 0 < pb.size5
        · rw [if_pos hs] at hu
          have heq := Option.some.inj hu
          subst heq
          cases pb
          simp [PlayerBlocks.mk.injEq]
        · rw [if_neg hs] at hu
          cases hu
      · simp [h3, h4, h5] at hu

end WataruTo

namespace WataruTo

theorem blocksOf_one (g : GameState) : g.blocksOf 1 = g.blocks1 := by
  simp [GameState.blocksOf, blocksFor]

theorem blocksOf_neg (g : GameState) : g.blocksOf (-1) = g.blocksN := by
  simp [GameState.blocksOf, blocksFor]

theorem setBlocks_blocks1 (g : GameState) (p : Int) (pb : PlayerBlocks) :
    (g.setBlocks p pb).blocks1 = if p = 1 then pb else g.blocks1 := by
  unfold GameState.setBlocks
  by_cases h1 : p = 1
  · simp [h1]
  · by_cases h2 : p = -1 <;> simp [h1, h2]

theorem setBlocks_blocksN (g : GameState) (p : Int) (pb : PlayerBlocks) :
    (g.setBlocks p pb).blocksN = if p = -1 then pb else g.blocksN := by
  unfold GameState.setBlocks
  by_cases h1 : p = 1
  · have : p ≠ -1 := by omega
    simp [h1, this]
  · by_cases h2 : p = -1 <;> simp [h1, h2]

/-- The inventory after an undo, in one formula. -/
theorem undo_blocks1 {s : GameState} {m : Move}
    (hlast : s.move_history.getLast? = some m) :
    (s.undo_last_move).2.blocks1 =
      if m.block_size = 4 ∧ m.player = 1 then
        { s.blocks1 with size4 := s.blocks1.size4 + 1 }
      else if m.block_size = 5 ∧ m.player = 1 then
        { s.blocks1 with size5 := s.blocks1.size5 + 1 }
      else s.blocks1 := by
  simp only [GameState.undo_last_move, hlast]
  by_cases hp1 : m.player = 1
  · simp only [hp1, and_true]
    split_ifs with h4 h5 <;>
      simp [setBlocks_blocks1, blocksOf_one, GameState.blocksOf, blocksFor]
  · split_ifs with h4 h5 h4' h5' <;>
      simp_all [setBlocks_blocks1]

/-- The mirrored formula for player -1's inventory. -/
theorem undo_blocksN {s : GameState} {m : Move}
    (hlast : s.move_history.getLast? = some m) :
    (s.undo_last_move).2.blocksN =
      if m.block_size = 4 ∧ m.player = -1 then
        { s.blocksN with size4 := s.blocksN.size4 + 1 }
      else if m.block_size = 5 ∧ m.player = -1 then
        { s.blocksN with size5 := s.blocksN.size5 + 1 }
      else s.blocksN := by
  simp only [GameState.undo_last_move, hlast]
  by_cases hpN : m.player = -1
  · simp only [hpN, and_true]
    split_ifs with h4 h5 <;>
      simp [setBlocks_blocksN, blocksOf_neg, GameState.blocksOf, blocksFor]
  · split_ifs with h4 h5 h4' h5' <;>
      simp_all [setBlocks_blocksN]

/-- C5: for a `GameState` with a well-formed board and a legal move of
its current player (a `Move` of the data model: player `±1`, layers in
`{0,1}`), `apply_move` succeeds and `undo_last_move` then restores the
board cells, the current player, both inventories, the move history,
and `winner = None`, exactly as before the move. -/
theorem apply_then_undo_roundtrip (g : GameState) (m : Move)
    (hWF : Board.WF g.board)
    (hp : m.player = 1 ∨ m.player = -1)
    (hlayers : ∀ pos ∈ m.path, pos.layer = 0 ∨ pos.layer = 1)
    (hv : g.is_valid_move m = true) :
    (g.apply_move m).1 = true ∧
    ((g.apply_move m).2.undo_last_move).1 = true ∧
    ((g.apply_move m).2.undo_last_move).2.board = g.board ∧
    ((g.apply_move m).2.undo_last_move).2.current_player = g.current_player ∧
    ((g.apply_move m).2.undo_last_move).2.blocks1 = g.blocks1 ∧
    ((g.apply_move m).2.undo_last_move).2.blocksN = g.blocksN ∧
    ((g.apply_move m).2.undo_last_move).2.winner = none ∧ g.winner = none ∧
    ((g.apply_move m).2.undo_last_move).2.move_history = g.move_history := by
  obtain ⟨pb', hu⟩ := use_block_of_valid hv
  have hlast : (g.apply_move m).2.move_history.getLast? = some m := by
    rw [apply_move_history hv hu]
    exact List.getLast?_concat _
  have hrestore := use_block_restore hu
  refine ⟨apply_move_fst hv hu, ?_, ?_, ?_, ?_, ?_, ?_, is_valid_move_winner hv, ?_⟩
  · simp [GameState.undo_last_move, hlast]
  · have hb : ((g.apply_move m).2.undo_last_move).2.board =
        m.path.foldl (fun bd pos => bd.set_cell pos.row pos.col pos.layer 0)
          ((g.apply_move m).2.board) := by
      simp only [GameState.undo_last_move, hlast]
    rw [hb]
    exact roundtrip_board hWF hp hlayers hv hu
  · have hc : ((g.apply_move m).2.undo_last_move).2.current_player = m.player := by
      simp only [GameState.undo_last_move, hlast]
    rw [hc]
    exact is_valid_move_player hv
  · rw [undo_blocks1 hlast]
    rcases hp with hp1 | hpN
    · have hb1 : (g.apply_move m).2.blocks1 = pb' := by
        rw [apply_move_blocks1 hv hu, setBlocks_blocks1, if_pos hp1]
      rw [hp1, blocksOf_one] at hrestore
      rw [hb1, hp1]
      simp only [and_true]
      exact hrestore
    · have hb1 : (g.apply_move m).2.blocks1 = g.blocks1 := by
        rw [apply_move_blocks1 hv hu, setBlocks_blocks1, if_neg (by omega)]
      have hne : m.player ≠ 1 := by omega
      rw [hb1]
      simp [hne]
  · rw [undo_blocksN hlast]
    rcases hp with hp1 | hpN
    · have hbN : (g.apply_move m).2.blocksN = g.blocksN := by
        rw [apply_move_blocksN hv hu, setBlocks_blocksN, if_neg (by omega)]
      have hne : m.player ≠ -1 := by omega
      rw [hbN]
      simp [hne]
    · have hbN : (g.apply_move m).2.blocksN = pb' := by
        rw [apply_move_blocksN hv hu, setBlocks_blocksN, if_pos hpN]
      rw [hpN, blocksOf_neg] at hrestore
      rw [hbN, hpN]
      simp only [and_true]
      exact hrestore
  · simp only [GameState.undo_last_move, hlast]
  · have hh : ((g.apply_move m).2.undo_last_move).2.move_history =
        (g.apply_move m).2.move_history.dropLast := by
      simp only [GameState.undo_last_move, hlast]
    rw [hh, apply_move_history hv hu]
    exact List.dropLast_concat ..

/-- Witness for C5: the opening `mH0` on the fresh 3×3 game. -/
theorem apply_then_undo_roundtrip_witness :
    (s3.apply_move mH0).1 = true ∧
    ((s3.apply_move mH0).2.undo_last_move).1 = true ∧
    ((s3.apply_move mH0).2.undo_last_move).2.board = s3.board ∧
    ((s3.apply_move mH0).2.undo_last_move).2.current_player = s3.current_player ∧
    ((s3.apply_move mH0).2.undo_last_move).2.blocks1 = s3.blocks1 ∧
    ((s3.apply_move mH0).2.undo_last_move).2.blocksN = s3.blocksN ∧
    ((s3.apply_move mH0).2.undo_last_move).2.winner = none ∧ s3.winner = none ∧
    ((s3.apply_move mH0).2.undo_last_move).2.move_history = s3.move_history :=
  apply_then_undo_roundtrip s3 mH0 (WF_empty 3) (by decide) (by decide) (by decide)

end WataruTo

namespace WataruTo

/-!
## MCTS helper lemmas
-/

theorem mkNode_untried (s : GameState) (mv : Option Move) :
    (mkNode s mv).untried_moves = (s.get_legal_moves).1 := rfl

theorem mkNode_children (s : GameState) (mv : Option Move) :
    (mkNode s mv).children = [] := rfl

theorem clone_cache (s : GameState) : s.clone.cache_valid = false := rfl

/-- With an invalid cache, `get_legal_moves` is the pure recomputation. -/
theorem get_legal_moves_calc {s : GameState} (h : s.cache_valid = false) :
    (s.get_legal_moves).1 = s.legalMovesCalc := by
  unfold GameState.get_legal_moves GameState.legalMovesCalc
  rw [if_neg (by simp [h])]
  split <;> rfl

/-- Cloning does not change which moves are legal. -/
theorem legalMovesCalc_clone (s : GameState) :
    s.clone.legalMovesCalc = s.legalMovesCalc := rfl

theorem clone_legal_moves (s : GameState) :
    (s.clone.get_legal_moves).1 = s.legalMovesCalc :=
  (get_legal_moves_calc (clone_cache s)).trans (legalMovesCalc_clone s)

/-- The simulation loop does nothing on a zero budget. -/
theorem mctsLoop_zero (tactical : Bool) (rngs : Nat → RNG) (budget : Nat) (t : MCTSTree) :
    mctsLoop tactical rngs budget 0 t = t := rfl

/-- `pyMax` returns an element of the list. -/
theorem pyMax_mem {α : Type} (key : α → EReal) :
    ∀ (xs : List α) (x : α), pyMax key x xs ∈ x :: xs := by
  intro xs
  induction xs with
  | nil => intro x; simp [pyMax]
  | cons y ys ih =>
    intro x
    simp only [pyMax, List.foldl_cons]
    by_cases h : key x < key y
    · rw [if_pos h]
      have := ih y
      simp only [pyMax] at this
      rcases List.mem_cons.mp this with h1 | h1
      · simp [h1]
      · simp [List.mem_cons.mpr (Or.inr (List.mem_cons.mpr (Or.inr h1)))]
    · rw [if_neg h]
      have := ih x
      simp only [pyMax] at this
      rcases List.mem_cons.mp this with h1 | h1
      · simp [h1]
      · simp [List.mem_cons.mpr (Or.inr (List.mem_cons.mpr (Or.inr h1)))]

/-- `pyMax` maximizes the key over the list. -/
theorem pyMax_le {α : Type} (key : α → EReal) :
    ∀ (xs : List α) (x : α), ∀ z ∈ x :: xs, key z ≤ key (pyMax key x xs) := by
  intro xs
  induction xs with
  | nil =>
    intro x z hz
    rcases List.mem_cons.mp hz with rfl | h
    · exact le_refl _
    · cases h
  | cons y ys ih =>
    intro x z hz
    simp only [pyMax, List.foldl_cons]
    by_cases h : key x < key y
    · rw [if_pos h]
      rcases List.mem_cons.mp hz with rfl | hz1
      · exact (le_of_lt h).trans (ih y y (List.mem_cons_self _ _))
      · exact ih y z hz1

    · rw [if_neg h]
      rcases List.mem_cons.mp hz with rfl | hz1
      · exact ih _ _ (List.mem_cons_self _ _)
      · rcases List.mem_cons.mp hz1 with rfl | hz2
        · exact (le_of_not_lt h).trans (ih _ _ (List.mem_cons_self _ _))
        · exact ih _ z (List.mem_cons.mpr (Or.inr hz2))

end WataruTo

namespace WataruTo

/-!
## C6 — zero-budget search
-/

/-- C6 counterexample: on the fresh 3×3 game (which has six legal
moves) a non-tactical engine whose budget permits zero simulations
returns no move at all — `search` yields `none`, not "the best move
found so far". -/
theorem search_zero_budget_counterexample :
    s3.legalMovesCalc ≠ [] ∧
    (search ⟨1.41, false⟩ (fun _ _ => 0) 0 s3).1 = none := by
  constructor
  · decide
  · have ht : (⟨1.41, false⟩ : MCTSConfig).use_tactical_heuristics = false := rfl
    unfold search
    simp only [ht, Bool.false_eq_true, false_and, if_false]
    rw [mctsLoop_zero]
    split
    · rfl
    · rfl

/-- C6 amended: with tactical heuristics off, a search budget that
allows zero completed simulations makes `search` return `none` (no
move) for **every** state — it degrades to "no move", never to an
error, even when legal moves exist.  A legal move is only returned
once at least one simulation has expanded a root child. -/
theorem search_zero_budget_none (cfg : MCTSConfig) (rngs : Nat → RNG) (s : GameState)
    (ht : cfg.use_tactical_heuristics = false) :
    (search cfg rngs 0 s).1 = none := by
  unfold search
  simp only [ht, Bool.false_eq_true, false_and, if_false]
  rw [mctsLoop_zero]
  split
  · rfl
  · rfl

/-- Witness for C6 (amended) at a concrete non-tactical engine. -/
theorem search_zero_budget_none_witness :
    (search ⟨1.41, false⟩ (fun _ _ => 0) 0 s3).1 = none :=
  search_zero_budget_none ⟨1.41, false⟩ (fun _ _ => 0) s3 rfl

end WataruTo

namespace WataruTo

/-!
## C7 — root-level forced defense
-/

/-- C7: with tactical heuristics on, if the opponent has at least one
one-ply winning reply to a (cache-coherent) position and some legal
move of the mover removes them all, then `search` returns such a
blocking move — a member of the legal list after which the opponent has
no one-ply win — with `simulations_run = 0`: the tree search never
runs, whatever the budget. -/
theorem search_forced_defense (cfg : MCTSConfig) (rngs : Nat → RNG) (budget : Nat)
    (s : GameState)
    (ht : cfg.use_tactical_heuristics = true)
    (hc : s.cache_valid = false)
    (hthreat : oppWinningMoves s ≠ [])
    (hblock : ∃ b ∈ (s.get_legal_moves).1, oppCanStillWin s b = false) :
    ∃ b, (search cfg rngs budget s).1 = some b ∧
      b ∈ (s.get_legal_moves).1 ∧ oppCanStillWin s b = false ∧
      (search cfg rngs budget s).2.simulations_run = 0 := by
  obtain ⟨b0, hb0mem, hb0⟩ := hblock
  have hsome : (((s.get_legal_moves).1.find? (fun my => ! oppCanStillWin s my))).isSome := by
    rw [List.find?_isSome]
    exact ⟨b0, hb0mem, by simp [hb0]⟩
  obtain ⟨b, hb⟩ := Option.isSome_iff_exists.mp hsome
  have hbmem := List.mem_of_find?_eq_some hb
  have hbp := List.find?_some hb
  have hfb : find_blocking_move s (s.get_legal_moves).1 = some b := by
    unfold find_blocking_move
    rw [if_neg (by simpa [List.isEmpty_iff] using hthreat)]
    exact hb
  have huntried : ¬ ((mkNode s.clone none).untried_moves = [] ∧
      (mkNode s.clone none).children.isEmpty = true) := by
    intro hand
    apply List.ne_nil_of_mem hb0mem
    have heq : (mkNode s.clone none).untried_moves = (s.get_legal_moves).1 := by
      rw [mkNode_untried, clone_legal_moves, ← get_legal_moves_calc hc]
    rw [← heq]
    exact hand.1
  refine ⟨b, ?_, hbmem, by simpa using hbp, ?_⟩
  · show (search cfg rngs budget s).1 = some b
    unfold search
    simp only [ht, true_and]
    rw [if_neg huntried, if_pos hthreat, hfb]
  · show (search cfg rngs budget s).2.simulations_run = 0
    unfold search
    simp only [ht, true_and]
    rw [if_neg huntried, if_pos hthreat, hfb]

/-- Witness for C7: on the fresh 3×3 game, player -1 threatens to win
in one ply (any full row), and player 1's first column both wins and
removes every such reply; `search` returns it without simulating. -/
theorem search_forced_defense_witness :
    ∃ b, (search ⟨1.41, true⟩ (fun _ _ => 0) 5 s3).1 = some b ∧
      b ∈ (s3.get_legal_moves).1 ∧ oppCanStillWin s3 b = false ∧
      (search ⟨1.41, true⟩ (fun _ _ => 0) 5 s3).2.simulations_run = 0 :=
  search_forced_defense ⟨1.41, true⟩ (fun _ _ => 0) 5 s3 rfl rfl (by decide) (by decide)

end WataruTo

namespace WataruTo

/-!
## C9 — UCB1 selection
-/

theorem log_five_ge_one : (1 : ℝ) ≤ Real.log 5 := by
  rw [Real.le_log_iff_exp_le (by norm_num : (0 : ℝ) < 5)]
  calc Real.exp 1 ≤ 2.7182818286 := le_of_lt Real.exp_one_lt_d9
    _ ≤ 5 := by norm_num

theorem sqrt_log_five_ge_one : (1 : ℝ) ≤ Real.sqrt (Real.log 5) := by
  have h := Real.sqrt_le_sqrt log_five_ge_one
  simpa [Real.sqrt_one] using h

/-- C9 counterexample: `select_child` ranks by `ucb1()` with its
*default* constant 1.41, not the engine's configured
`exploration_weight`.  With the weight configured to 0 the claim says
the exploitation-maximal child (`nodeA`, ratio 1) must be chosen, but
the code picks `nodeB` (ratio 1/2, fewer visits): the selected child
does not maximize UCB1 at the configured constant. -/
theorem select_child_ignores_configured_weight :
    select_child 5 [nodeA, nodeB] = some nodeB ∧
    ucb1 0 5 nodeB < ucb1 0 5 nodeA := by
  have hs1 := sqrt_log_five_ge_one
  have h4 : Real.sqrt 4 = 2 := by
    rw [show (4 : ℝ) = 2 ^ 2 by norm_num, Real.sqrt_sq (by norm_num : (0 : ℝ) ≤ 2)]
  have hdiv : Real.sqrt (Real.log 5 / 4) = Real.sqrt (Real.log 5) / 2 := by
    rw [Real.sqrt_div (le_trans zero_le_one log_five_ge_one) 4, h4]
  constructor
  · show some (pyMax (ucb1 1.41 5) nodeA [nodeB]) = some nodeB
    have hlt : ucb1 1.41 5 nodeA < ucb1 1.41 5 nodeB := by
      rw [ucb1, ucb1]
      rw [if_neg (by simp [nodeA, MCTSTree.visits]),
        if_neg (by simp [nodeB, MCTSTree.visits])]
      rw [EReal.coe_lt_coe_iff]
      simp only [nodeA, nodeB, MCTSTree.visits, MCTSTree.wins]
      push_cast
      simp only [div_one]
      rw [hdiv]
      nlinarith [hs1]
    simp only [pyMax, List.foldl_cons, List.foldl_nil]
    rw [if_pos hlt]
  · rw [ucb1, ucb1]
    rw [if_neg (by simp [nodeB, MCTSTree.visits]),
      if_neg (by simp [nodeA, MCTSTree.visits])]
    rw [EReal.coe_lt_coe_iff]
    simp only [nodeA, nodeB, MCTSTree.visits, MCTSTree.wins]
    push_cast
    norm_num

/-- C9 amended: during selection the engine descends to the child of
maximal `ucb1` computed with the **default** constant 1.41 (the
configured `exploration_weight` is stored but never passed to `ucb1`);
the returned child is one of the children, no child has a larger UCB1
value, and if any child is unvisited (UCB1 `+infinity`) the selected
child is unvisited. -/
theorem select_child_maximizes (pv : Nat) (x : MCTSTree) (xs : List MCTSTree) :
    ∃ ch, select_child pv (x :: xs) = some ch ∧ ch ∈ x :: xs ∧
      (∀ z ∈ x :: xs, ucb1 1.41 pv z ≤ ucb1 1.41 pv ch) ∧
      ((∃ z ∈ x :: xs, z.visits = 0) → ch.visits = 0) := by
  refine ⟨pyMax (ucb1 1.41 pv) x xs, rfl, pyMax_mem _ xs x, pyMax_le _ xs x, ?_⟩
  rintro ⟨z, hz, hzv⟩
  have hle := pyMax_le (ucb1 1.41 pv) xs x z hz
  have hztop : ucb1 1.41 pv z = ⊤ := by simp [ucb1, hzv]
  rw [hztop] at hle
  have htop : ucb1 1.41 pv (pyMax (ucb1 1.41 pv) x xs) = ⊤ := top_le_iff.mp hle
  by_contra hne
  rw [ucb1, if_neg hne] at htop
  exact (EReal.coe_ne_top _) htop

/-- Witness for C9 (amended): a two-child node with an unvisited child. -/
theorem select_child_maximizes_witness :
    ∃ ch, select_child 5 [nodeA, nodeC] = some ch ∧ ch ∈ [nodeA, nodeC] ∧
      (∀ z ∈ [nodeA, nodeC], ucb1 1.41 5 z ≤ ucb1 1.41 5 ch) ∧
      ch.visits = 0 := by
  obtain ⟨ch, h1, h2, h3, h4⟩ := select_child_maximizes 5 nodeA [nodeC]
  exact ⟨ch, h1, h2, h3, h4 ⟨nodeC, by simp, rfl⟩⟩

end WataruTo

namespace WataruTo

/-!
## Facts about `walkCells`
-/

theorem walkCells_length (dr dc sl : Int) :
    ∀ (k : Nat) (r c : Int), (walkCells r c dr dc sl k).length = k := by
  intro k
  induction k with
  | zero => intro r c; rfl
  | succ k ih => intro r c; simp [walkCells, ih]

theorem mem_walkCells (dr dc sl : Int) :
    ∀ (k : Nat) (r c : Int) (pos : Position),
      pos ∈ walkCells r c dr dc sl k ↔
        ∃ i : Nat, 1 ≤ i ∧ i ≤ k ∧ pos = ⟨r + i * dr, c + i * dc, sl⟩ := by
  intro k
  induction k with
  | zero =>
    intro r c pos
    simp [walkCells]
    omega
  | succ k ih =>
    intro r c pos
    simp only [walkCells, List.mem_cons, ih]
    constructor
    · rintro (rfl | ⟨i, h1, h2, rfl⟩)
      · exact ⟨1, le_refl 1, by omega, by simp⟩
      · refine ⟨i + 1, by omega, by omega, ?_⟩
        simp only [Position.mk.injEq]
        push_cast
        refine ⟨by ring, by ring, trivial⟩
    · rintro ⟨i, h1, h2, rfl⟩
      by_cases hi : i = 1
      · subst hi
        left
        simp
      · right
        refine ⟨i - 1, by omega, by omega, ?_⟩
        simp only [Position.mk.injEq]
        have hcast : ((i - 1 : Nat) : Int) = (i : Int) - 1 := by omega
        rw [hcast]
        refine ⟨by ring, by ring, trivial⟩

theorem walkCells_getLastD (dr dc sl : Int) :
    ∀ (k : Nat) (r c : Int) (d : Position),
      (walkCells r c dr dc sl (k + 1)).getLastD d =
        ⟨r + ((k : Int) + 1) * dr, c + ((k : Int) + 1) * dc, sl⟩ := by
  intro k
  induction k with
  | zero =>
    intro r c d
    show Position.mk (r + dr) (c + dc) sl = _
    simp only [Position.mk.injEq]
    refine ⟨by ring, by ring, trivial⟩
  | succ k ih =>
    intro r c d
    rw [show k + 1 + 1 = (k + 1) + 1 from rfl, walkCells, List.getLastD_cons, ih]
    simp only [Position.mk.injEq]
    push_cast
    refine ⟨by ring, by ring, trivial⟩

end WataruTo

namespace WataruTo

/-!
## Characterising membership in the generated move list
-/

theorem emitMove_mem_iff (b : Board) (p sl : Int) (pb : PlayerBlocks)
    (path : List Position) (r c : Int) (m0 : Move) :
    m0 ∈ emitMove b p sl pb path r c ↔
      3 ≤ path.length ∧ ¬ (sl = 1 ∧ (b.get_cell r c).1 ≠ p) ∧
      pb.has_block path.length = true ∧ (p = 1 ∨ p = -1) ∧ m0 = ⟨p, path⟩ := by
  unfold emitMove
  by_cases h1 : 3 ≤ path.length
  · rw [if_pos h1]
    by_cases h2 : sl = 1 ∧ (b.get_cell r c).1 ≠ p
    · rw [if_pos h2]
      simp only [List.not_mem_nil, false_iff]
      rintro ⟨-, hn, -⟩
      exact hn h2
    · rw [if_neg h2]
      by_cases h3 : pb.has_block path.length = true
      · rw [if_neg (by simp [h3])]
        by_cases h4 : p = 1 ∨ p = -1
        · rw [if_pos h4]
          simp only [List.mem_singleton]
          constructor
          · intro h
            exact ⟨h1, h2, h3, h4, h⟩
          · rintro ⟨-, -, -, -, h⟩
            exact h
        · rw [if_neg h4]
          simp only [List.not_mem_nil, false_iff]
          rintro ⟨-, -, -, hp, -⟩
          exact h4 hp
      · rw [if_pos (by simp [h3])]
        simp only [List.not_mem_nil, false_iff]
        rintro ⟨-, -, hhb, -⟩
        exact h3 hhb
  · rw [if_neg h1]
    simp only [List.not_mem_nil, false_iff]
    rintro ⟨hlen, -⟩
    exact h1 hlen

/-- A failed step condition at the first new cell kills every `k ≥ 1`. -/
theorem no_walk_of_step_fail {b : Board} {p sl dr dc r c : Int}
    (hfail : ¬ stepOK b p sl ⟨r + dr, c + dc, sl⟩ = true) (P : Nat → Prop) :
    ¬ ∃ k : Nat, 1 ≤ k ∧ P k ∧
      (∀ pos ∈ walkCells r c dr dc sl k, stepOK b p sl pos = true) := by
  rintro ⟨k, h1, -, hstep⟩
  obtain ⟨k0, rfl⟩ : ∃ k0, k = k0 + 1 := ⟨k - 1, by omega⟩
  exact hfail (hstep _ (List.mem_cons_self _ _))

/-- Membership in the generator's walk, as a closed formula: the walk
emits exactly the moves `⟨p, path ++ walkCells … k⟩` whose every new
cell passes the step condition, whose length and inventory checks pass,
and (for a bridge) whose final cell rests on the mover's colour. -/
theorem walkExt_mem_iff (b : Board) (p sl : Int) (hsl : sl = 0 ∨ sl = 1)
    (pb : PlayerBlocks) (dr dc : Int) :
    ∀ (steps : Nat) (r c : Int) (path : List Position) (m0 : Move),
      m0 ∈ walkExt b p sl pb dr dc steps r c path ↔
      ∃ k : Nat, 1 ≤ k ∧ k ≤ steps ∧
        (∀ pos ∈ walkCells r c dr dc sl k, stepOK b p sl pos = true) ∧
        3 ≤ path.length + k ∧
        (sl = 1 → (b.get_cell (r + (k : Int) * dr) (c + (k : Int) * dc)).1 = p) ∧
        pb.has_block (path.length + k) = true ∧
        (p = 1 ∨ p = -1) ∧
        m0 = ⟨p, path ++ walkCells r c dr dc sl k⟩ := by
  intro steps
  induction steps with
  | zero =>
    intro r c path m0
    simp only [walkExt, List.not_mem_nil, false_iff]
    rintro ⟨k, h1, h2, -⟩
    omega
  | succ steps ih =>
    intro r c path m0
    by_cases hval : b.is_valid_position (r + dr) (c + dc)
    · by_cases hl2 : (b.get_cell (r + dr) (c + dc)).2 = 0
      · by_cases hcond : (if sl = 0 then (b.get_cell (r + dr) (c + dc)).1 = 0
          else ((b.get_cell (r + dr) (c + dc)).1 = p ∨ (b.get_cell (r + dr) (c + dc)).1 = 0))
        · -- the step succeeds: one emit plus the shifted walk
          have hstep1 : stepOK b p sl ⟨r + dr, c + dc, sl⟩ = true := by
            unfold stepOK
            by_cases hsl0 : sl = 0
            · rw [if_pos hsl0] at hcond
              simp [hsl0, hval, hl2, hcond]
            · rw [if_neg hsl0] at hcond
              simp [hsl0, hval, hl2, hcond]
          have hbranch : walkExt b p sl pb dr dc (steps + 1) r c path =
              emitMove b p sl pb (path ++ [⟨r + dr, c + dc, sl⟩]) (r + dr) (c + dc) ++
              walkExt b p sl pb dr dc steps (r + dr) (c + dc)
                (path ++ [⟨r + dr, c + dc, sl⟩]) := by
            rcases hsl with hsl0 | hsl1
            · subst hsl0
              rw [if_pos rfl] at hcond
              simp [walkExt, hval, hl2, hcond]
            · subst hsl1
              rw [if_neg one_ne_zero] at hcond
              simp [walkExt, hval, hl2, hcond]
          rw [hbranch, List.mem_append, emitMove_mem_iff, ih]
          constructor
          · rintro (⟨hlen, hend, hhb, hp, hm⟩ | ⟨k', h1, h2, hstep, hlen, hend, hhb, hp, hm⟩)
            · refine ⟨1, le_refl 1, by omega, ?_, ?_, ?_, ?_, hp, ?_⟩
              · intro pos hpos
                rcases List.mem_cons.mp hpos with rfl | hpos2
                · exact hstep1
                · simp [walkCells] at hpos2
              · simpa using hlen
              · intro hsl1
                rw [Nat.cast_one, one_mul, one_mul]
                by_contra hne
                exact hend ⟨hsl1, hne⟩
              · simpa using hhb
              · simpa using hm
            · refine ⟨k' + 1, by omega, by omega, ?_, ?_, ?_, ?_, hp, ?_⟩
              · intro pos hpos
                rcases List.mem_cons.mp hpos with rfl | hpos2
                · exact hstep1
                · exact hstep pos hpos2
              · simp only [List.length_append, List.length_singleton] at hlen
                omega
              · intro hsl1
                have hnew := hend hsl1
                have harith : r + dr + (k' : Int) * dr = r + ((k' + 1 : Nat) : Int) * dr := by
                  push_cast
                  ring
                have harith2 : c + dc + (k' : Int) * dc = c + ((k' + 1 : Nat) : Int) * dc := by
                  push_cast
                  ring
                rw [harith, harith2] at hnew
                exact hnew
              · have heq : path.length + (k' + 1) =
                    (path ++ [(⟨r + dr, c + dc, sl⟩ : Position)]).length + k' := by
                  simp only [List.length_append, List.length_singleton]
                  omega
                rw [heq]
                exact hhb
              · rw [hm]
                simp [walkCells]
          · rintro ⟨k, h1, h2, hstep, hlen, hend, hhb, hp, hm⟩
            by_cases hk1 : k = 1
            · subst hk1
              left
              refine ⟨by simpa using hlen, ?_, by simpa using hhb, hp, ?_⟩
              · rintro ⟨hsl1, hne⟩
                have := hend hsl1
                rw [Nat.cast_one, one_mul, one_mul] at this
                exact hne this
              · rw [hm]
                simp [walkCells]
            · right
              obtain ⟨k', rfl⟩ : ∃ k', k = k' + 1 := ⟨k - 1, by omega⟩
              refine ⟨k', by omega, by omega, ?_, ?_, ?_, ?_, hp, ?_⟩
              · intro pos hpos
                exact hstep pos (List.mem_cons.mpr (Or.inr hpos))
              · simp only [List.length_append, List.length_singleton]
                omega
              · intro hsl1
                have hnew := hend hsl1
                have harith : r + ((k' + 1 : Nat) : Int) * dr = r + dr + (k' : Int) * dr := by
                  push_cast
                  ring
                have harith2 : c + ((k' + 1 : Nat) : Int) * dc = c + dc + (k' : Int) * dc := by
                  push_cast
                  ring
                rw [harith, harith2] at hnew
                exact hnew
              · have heq : (path ++ [(⟨r + dr, c + dc, sl⟩ : Position)]).length + k' =
                    path.length + (k' + 1) := by
                  simp only [List.length_append, List.length_singleton]
                  omega
                rw [heq]
                exact hhb
              · rw [hm]
                simp [walkCells]
        · -- the layer condition fails: the walk stops before any emit
          have hfail : ¬ stepOK b p sl ⟨r + dr, c + dc, sl⟩ = true := by
            unfold stepOK
            by_cases hsl0 : sl = 0
            · rw [if_pos hsl0] at hcond
              simp [hsl0, hval, hl2, hcond]
            · rw [if_neg hsl0] at hcond
              simp [hsl0, hval, hl2, hcond]
          have hnil : walkExt b p sl pb dr dc (steps + 1) r c path = [] := by
            rcases hsl with hsl0 | hsl1
            · subst hsl0
              rw [if_pos rfl] at hcond
              simp [walkExt, hval, hl2, hcond]
            · subst hsl1
              rw [if_neg one_ne_zero] at hcond
              simp [walkExt, hval, hl2, hcond]
          rw [hnil]
          simp only [List.not_mem_nil, false_iff]
          rintro ⟨k, h1, h2, hstep, -⟩
          exact no_walk_of_step_fail hfail (fun k => k ≤ steps + 1) ⟨k, h1, h2, hstep⟩
      · have hfail : ¬ stepOK b p sl ⟨r + dr, c + dc, sl⟩ = true := by
          unfold stepOK
          simp [hval, hl2]
        have hnil : walkExt b p sl pb dr dc (steps + 1) r c path = [] := by
          simp [walkExt, hval, hl2]
        rw [hnil]
        simp only [List.not_mem_nil, false_iff]
        rintro ⟨k, h1, h2, hstep, -⟩
        exact no_walk_of_step_fail hfail (fun k => k ≤ steps + 1) ⟨k, h1, h2, hstep⟩
    · have hfail : ¬ stepOK b p sl ⟨r + dr, c + dc, sl⟩ = true := by
        unfold stepOK
        simp [hval]
      have hnil : walkExt b p sl pb dr dc (steps + 1) r c path = [] := by
        simp [walkExt, hval]
      rw [hnil]
      simp only [List.not_mem_nil, false_iff]
      rintro ⟨k, h1, h2, hstep, -⟩
      exact no_walk_of_step_fail hfail (fun k => k ≤ steps + 1) ⟨k, h1, h2, hstep⟩

end WataruTo

namespace WataruTo

theorem genFrom_mem_iff (b : Board) (p : Int) (pb : PlayerBlocks)
    (row col : Int) (m0 : Move) :
    m0 ∈ genFrom b p pb row col ↔
      (b.get_cell row col).2 = 0 ∧
      ∃ sl : Int,
        ((sl = 0 ∧ (b.get_cell row col).1 = 0) ∨ (sl = 1 ∧ (b.get_cell row col).1 = p)) ∧
      ∃ dr dc : Int, ((dr = 0 ∧ dc = 1) ∨ (dr = 1 ∧ dc = 0)) ∧
        m0 ∈ walkExt b p sl pb dr dc 4 row col [⟨row, col, sl⟩] := by
  unfold genFrom
  by_cases h2 : (b.get_cell row col).2 = 0
  · rw [if_neg (by simpa using h2)]
    constructor
    · intro hm
      rw [List.mem_flatMap] at hm
      obtain ⟨sl, hsl, hm⟩ := hm
      rw [List.mem_flatMap] at hm
      obtain ⟨d, hd, hm⟩ := hm
      refine ⟨h2, sl, ?_, d.1, d.2, ?_, hm⟩
      · rcases List.mem_append.mp hsl with h | h
        · by_cases hc : (b.get_cell row col).1 = 0
          · rw [if_pos hc] at h
            exact Or.inl ⟨List.mem_singleton.mp h, hc⟩
          · rw [if_neg hc] at h
            cases h
        · by_cases hc : (b.get_cell row col).1 = p
          · rw [if_pos hc] at h
            exact Or.inr ⟨List.mem_singleton.mp h, hc⟩
          · rw [if_neg hc] at h
            cases h
      · rcases List.mem_cons.mp hd with rfl | hd2
        · exact Or.inl ⟨rfl, rfl⟩
        · rcases List.mem_cons.mp hd2 with rfl | hd3
          · exact Or.inr ⟨rfl, rfl⟩
          · cases hd3
    · rintro ⟨-, sl, hslc, dr, dc, hd, hm⟩
      rw [List.mem_flatMap]
      refine ⟨sl, ?_, ?_⟩
      · rcases hslc with ⟨rfl, hc⟩ | ⟨rfl, hc⟩
        · exact List.mem_append.mpr (Or.inl (by rw [if_pos hc]; exact List.mem_singleton.mpr rfl))
        · exact List.mem_append.mpr (Or.inr (by rw [if_pos hc]; exact List.mem_singleton.mpr rfl))
      · rw [List.mem_flatMap]
        refine ⟨(dr, dc), ?_, hm⟩
        rcases hd with ⟨rfl, rfl⟩ | ⟨rfl, rfl⟩ <;> simp
  · rw [if_pos (by simpa using h2)]
    simp only [List.not_mem_nil, false_iff]
    rintro ⟨hc, -⟩
    exact h2 hc

theorem legalMovesGen_mem_iff (b : Board) (p : Int) (pb : PlayerBlocks) (m0 : Move) :
    m0 ∈ legalMovesGen b p pb ↔
      ∃ rn : Nat, rn < b.size ∧ ∃ cn : Nat, cn < b.size ∧
        m0 ∈ genFrom b p pb (rn : Int) (cn : Int) := by
  unfold legalMovesGen
  simp [List.mem_flatMap, List.mem_range]

end WataruTo

namespace WataruTo

/-!
## Shape facts about generated spines
-/

theorem contiguousBy_spine_col (sl : Int) :
    ∀ (k : Nat) (r c : Int),
      contiguousBy (fun p => p.col) (⟨r, c, sl⟩ :: walkCells r c 0 1 sl k) = true := by
  intro k
  induction k with
  | zero => intro r c; rfl
  | succ k ih =>
    intro r c
    show contiguousBy (fun p => p.col)
      (⟨r, c, sl⟩ :: ⟨r + 0, c + 1, sl⟩ :: walkCells (r + 0) (c + 1) 0 1 sl k) = true
    rw [contiguousBy, Bool.and_eq_true]
    refine ⟨by simp, ?_⟩
    exact ih (r + 0) (c + 1)

theorem contiguousBy_spine_row (sl : Int) :
    ∀ (k : Nat) (r c : Int),
      contiguousBy (fun p => p.row) (⟨r, c, sl⟩ :: walkCells r c 1 0 sl k) = true := by
  intro k
  induction k with
  | zero => intro r c; rfl
  | succ k ih =>
    intro r c
    show contiguousBy (fun p => p.row)
      (⟨r, c, sl⟩ :: ⟨r + 1, c + 0, sl⟩ :: walkCells (r + 1) (c + 0) 1 0 sl k) = true
    rw [contiguousBy, Bool.and_eq_true]
    refine ⟨by simp, ?_⟩
    exact ih (r + 1) (c + 0)

theorem chain_le_of_contiguous (key : Position → Int) :
    ∀ l : List Position, contiguousBy key l = true →
      l.Chain' (fun a b => key a ≤ key b) := by
  intro l
  induction l with
  | nil => intro _; exact List.chain'_nil
  | cons a t ih =>
    intro h
    cases t with
    | nil => simp
    | cons b rest =>
      rw [contiguousBy, Bool.and_eq_true] at h
      rw [List.chain'_cons]
      refine ⟨by have := h.1; simp at this; omega, ih h.2⟩

theorem chain_lt_of_contiguous (key : Position → Int) :
    ∀ l : List Position, contiguousBy key l = true →
      l.Chain' (fun a b => key a < key b) := by
  intro l
  induction l with
  | nil => intro _; exact List.chain'_nil
  | cons a t ih =>
    intro h
    cases t with
    | nil => simp
    | cons b rest =>
      rw [contiguousBy, Bool.and_eq_true] at h
      rw [List.chain'_cons]
      refine ⟨by have := h.1; simp at this; omega, ih h.2⟩

theorem nodup_of_contiguous (key : Position → Int) (l : List Position)
    (h : contiguousBy key l = true) : l.Nodup := by
  have hchain := chain_lt_of_contiguous key l h
  haveI : IsTrans Position (fun a b => key a < key b) :=
    ⟨fun _ _ _ h1 h2 => lt_trans h1 h2⟩
  have hpair : l.Pairwise (fun a b => key a < key b) :=
    List.chain'_iff_pairwise.mp hchain
  exact hpair.imp (fun hlt heq => absurd (heq ▸ hlt) (lt_irrefl _))

theorem mem_spine_col {sl : Int} {k : Nat} {r c : Int} {pos : Position}
    (h : pos ∈ (⟨r, c, sl⟩ : Position) :: walkCells r c 0 1 sl k) :
    pos.row = r ∧ pos.layer = sl := by
  rcases List.mem_cons.mp h with rfl | h2
  · exact ⟨rfl, rfl⟩
  · obtain ⟨i, -, -, rfl⟩ := (mem_walkCells 0 1 sl k r c pos).mp h2
    constructor
    · show r + (i : Int) * 0 = r
      ring
    · rfl

theorem mem_spine_row {sl : Int} {k : Nat} {r c : Int} {pos : Position}
    (h : pos ∈ (⟨r, c, sl⟩ : Position) :: walkCells r c 1 0 sl k) :
    pos.col = c ∧ pos.layer = sl := by
  rcases List.mem_cons.mp h with rfl | h2
  · exact ⟨rfl, rfl⟩
  · obtain ⟨i, -, -, rfl⟩ := (mem_walkCells 1 0 sl k r c pos).mp h2
    constructor
    · show c + (i : Int) * 0 = c
      ring
    · rfl

theorem allSameRow_spine_col (sl : Int) (k : Nat) (r c : Int) :
    allSameRow ((⟨r, c, sl⟩ : Position) :: walkCells r c 0 1 sl k) = true := by
  rw [allSameRow, List.all_eq_true]
  intro pos hpos
  have := (mem_spine_col hpos).1
  simp [pathHead, this]

theorem allSameCol_spine_row (sl : Int) (k : Nat) (r c : Int) :
    allSameCol ((⟨r, c, sl⟩ : Position) :: walkCells r c 1 0 sl k) = true := by
  rw [allSameCol, List.all_eq_true]
  intro pos hpos
  have := (mem_spine_row hpos).1
  simp [pathHead, this]

theorem allSameRow_spine_row (sl : Int) (k : Nat) (r c : Int) (hk : 1 ≤ k) :
    allSameRow ((⟨r, c, sl⟩ : Position) :: walkCells r c 1 0 sl k) = false := by
  obtain ⟨k0, rfl⟩ : ∃ k0, k = k0 + 1 := ⟨k - 1, by omega⟩
  rw [Bool.eq_false_iff]
  intro hall
  rw [allSameRow, List.all_eq_true] at hall
  have := hall ⟨r + 1, c + 0, sl⟩ (List.mem_cons.mpr (Or.inr (List.mem_cons_self _ _)))
  simp [pathHead] at this

end WataruTo

namespace WataruTo

theorem stepOK_elim {b : Board} {p sl : Int} {pos : Position}
    (h : stepOK b p sl pos = true) :
    (0 ≤ pos.row ∧ pos.row < (b.size : Int) ∧ 0 ≤ pos.col ∧ pos.col < (b.size : Int)) ∧
    (b.get_cell pos.row pos.col).2 = 0 ∧
    (sl = 0 → (b.get_cell pos.row pos.col).1 = 0) ∧
    (sl ≠ 0 → (b.get_cell pos.row pos.col).1 = p ∨ (b.get_cell pos.row pos.col).1 = 0) := by
  unfold stepOK at h
  rw [Bool.and_eq_true, Bool.and_eq_true] at h
  obtain ⟨⟨hv, hl2⟩, hmode⟩ := h
  refine ⟨?_, by simpa using hl2, ?_, ?_⟩
  · simpa [Board.is_valid_position, decide_eq_true_eq] using hv
  · intro h0
    rw [if_pos h0] at hmode
    simpa using hmode
  · intro h0
    rw [if_neg h0] at hmode
    simpa using hmode

theorem cellCheck_base_first {b : Board} {p : Int} {r c : Int}
    (hb : 0 ≤ r ∧ r < (b.size : Int) ∧ 0 ≤ c ∧ c < (b.size : Int))
    (hl2 : (b.get_cell r c).2 = 0) (h1 : (b.get_cell r c).1 = 0) :
    cellCheck b p 0 true ⟨r, c, 0⟩ = true := by
  unfold cellCheck
  rw [if_neg (by simp; omega), if_neg (by simp; omega)]
  simp [hl2, h1]

theorem cellCheck_bridge_first {b : Board} {p : Int} {r c : Int}
    (hb : 0 ≤ r ∧ r < (b.size : Int) ∧ 0 ≤ c ∧ c < (b.size : Int))
    (hl2 : (b.get_cell r c).2 = 0) (h1 : (b.get_cell r c).1 = p) :
    cellCheck b p 1 true ⟨r, c, 1⟩ = true := by
  unfold cellCheck
  rw [if_neg (by simp; omega), if_neg (by simp; omega)]
  simp [hl2, h1]

theorem cellCheck_base_rest {b : Board} {p : Int} {r c : Int}
    (hb : 0 ≤ r ∧ r < (b.size : Int) ∧ 0 ≤ c ∧ c < (b.size : Int))
    (hl2 : (b.get_cell r c).2 = 0) (h1 : (b.get_cell r c).1 = 0) :
    cellCheck b p 0 false ⟨r, c, 0⟩ = true := by
  unfold cellCheck
  rw [if_neg (by simp; omega), if_neg (by simp; omega)]
  simp [hl2, h1]

theorem cellCheck_bridge_rest {b : Board} {p : Int} {r c : Int}
    (hb : 0 ≤ r ∧ r < (b.size : Int) ∧ 0 ≤ c ∧ c < (b.size : Int))
    (hl2 : (b.get_cell r c).2 = 0)
    (h1 : (b.get_cell r c).1 = p ∨ (b.get_cell r c).1 = 0) :
    cellCheck b p 1 false ⟨r, c, 1⟩ = true := by
  unfold cellCheck
  rw [if_neg (by simp; omega), if_neg (by simp; omega)]
  rcases h1 with h1 | h1 <;> simp [hl2, h1]

end WataruTo

namespace WataruTo

/-- Constructor form of the walk's step condition. -/
theorem stepOK_intro {b : Board} {p sl : Int} {pos : Position}
    (hb : 0 ≤ pos.row ∧ pos.row < (b.size : Int) ∧ 0 ≤ pos.col ∧ pos.col < (b.size : Int))
    (hl2 : (b.get_cell pos.row pos.col).2 = 0)
    (hmode : if sl = 0 then (b.get_cell pos.row pos.col).1 = 0
      else (b.get_cell pos.row pos.col).1 = p ∨ (b.get_cell pos.row pos.col).1 = 0) :
    stepOK b p sl pos = true := by
  unfold stepOK
  rw [Bool.and_eq_true, Bool.and_eq_true]
  refine ⟨⟨?_, by simpa using hl2⟩, ?_⟩
  · simpa [Board.is_valid_position, decide_eq_true_eq] using hb
  · by_cases h0 : sl = 0
    · rw [if_pos h0] at hmode ⊢
      simpa using hmode
    · rw [if_neg h0] at hmode ⊢
      simpa using hmode

/-- Splitting a passed path check into its component facts. -/
theorem validate_path_elim {m : Move} (h : m.validate_path = true) :
    (3 ≤ m.path.length ∧ m.path.length ≤ 5) ∧
    ((allSameRow m.path = true ∧
        contiguousBy (fun q => q.col) (pySortBy (fun q => q.col) m.path) = true) ∨
     (allSameRow m.path = false ∧ allSameCol m.path = true ∧
        contiguousBy (fun q => q.row) (pySortBy (fun q => q.row) m.path) = true)) := by
  refine ⟨validate_path_length h, ?_⟩
  unfold Move.validate_path at h
  by_cases h1 : m.path.length < 3 ∨ 5 < m.path.length
  · rw [if_pos h1] at h
    cases h
  · rw [if_neg h1] at h
    by_cases h2 : ¬ (allSameRow m.path ∨ allSameCol m.path)
    · rw [if_pos h2] at h
      cases h
    · rw [if_neg h2] at h
      by_cases h3 : ¬ m.path.Nodup
      · rw [if_pos h3] at h
        cases h
      · rw [if_neg h3] at h
        by_cases h4 : allSameRow m.path
        · rw [if_pos h4] at h
          exact Or.inl ⟨h4, h⟩
        · rw [if_neg h4] at h
          have h4' : allSameRow m.path = false := by
            cases hB : allSameRow m.path
            · rfl
            · exact absurd hB h4
          have h5 : allSameCol m.path = true := by
            rcases not_not.mp h2 with hA | hB
            · exact absurd hA h4
            · exact hB
          exact Or.inr ⟨h4', h5, h⟩

/-- The validator's accepted bridge moves end on the mover's colour
(at the unsorted path's last cell). -/
theorem validator_bridge_end {m : Move} {b : Board} {b1 bN : PlayerBlocks}
    (h : MoveValidator.is_valid_move m b b1 bN = true)
    (hbm : m.is_bridge_mode = true) :
    (b.get_cell m.end_position.row m.end_position.col).1 = m.player := by
  have hvp := validator_validate_path h
  have hlen := validate_path_length hvp
  have hslen : (sortedPath m.path).length = m.path.length := sortedPath_length _
  cases heq : sortedPath m.path with
  | nil =>
    rw [heq] at hslen
    simp at hslen
    omega
  | cons first rest =>
    unfold MoveValidator.is_valid_move at h
    rw [heq] at h
    simp only [hvp, not_true, Bool.false_eq_true, if_false] at h
    split at h
    · simp at h
    · split at h
      · simp at h
      · simp only [Bool.and_eq_true] at h
        have h3 := h.2
        rw [Bool.or_eq_true] at h3
        rcases h3 with h3 | h3
        · rw [hbm] at h3
          simp at h3
        · simpa using h3

/-- Constructor form of validator acceptance. -/
theorem validator_intro {m : Move} {b : Board} {b1 bN : PlayerBlocks}
    (hvp : m.validate_path = true)
    (h4 : m.block_size = 4 → 0 < (blocksFor b1 bN m.player).size4)
    (h5 : m.block_size = 5 → 0 < (blocksFor b1 bN m.player).size5)
    (hmatch : ∀ first rest, sortedPath m.path = first :: rest →
      cellCheck b m.player first.layer true first = true ∧
      ∀ pos ∈ rest, cellCheck b m.player first.layer false pos = true)
    (hendc : m.is_bridge_mode = true →
      (b.get_cell m.end_position.row m.end_position.col).1 = m.player) :
    MoveValidator.is_valid_move m b b1 bN = true := by
  unfold MoveValidator.is_valid_move
  rw [if_neg (by simp [hvp]),
    if_neg (by rintro ⟨ha, hb2⟩; exact hb2 (h4 ha)),
    if_neg (by rintro ⟨ha, hb2⟩; exact hb2 (h5 ha))]
  split
  · rfl
  · rename_i first rest heq
    obtain ⟨hf, hr⟩ := hmatch first rest heq
    rw [Bool.and_eq_true, Bool.and_eq_true]
    refine ⟨⟨hf, ?_⟩, ?_⟩
    · rw [List.all_eq_true]
      exact hr
    · by_cases hbm : m.is_bridge_mode = true
      · simp [hendc hbm]
      · have hf2 : m.is_bridge_mode = false := by
          cases hB2 : m.is_bridge_mode
          · rfl
          · exact absurd hB2 hbm
        simp [hf2]

/-- A move is determined by its player and path. -/
theorem Move.eq_of (m : Move) (l : List Position) (h : m.path = l) :
    m = ⟨m.player, l⟩ := by
  cases m
  cases h
  rfl

end WataruTo


namespace WataruTo

/-- A column-contiguous one-row path of constant layer is exactly the
walk's spine to the right of its head. -/
theorem spine_of_contiguous_col :
    ∀ (rest : List Position) (first : Position),
      contiguousBy (fun q => q.col) (first :: rest) = true →
      allSameRow (first :: rest) = true →
      (∀ pos ∈ rest, pos.layer = first.layer) →
      rest = walkCells first.row first.col 0 1 first.layer rest.length := by
  intro rest
  induction rest with
  | nil =>
    intro first _ _ _
    rfl
  | cons b2 t ih =>
    intro first hcont hrow hlay
    rw [contiguousBy, Bool.and_eq_true] at hcont
    obtain ⟨hc1, hc2⟩ := hcont
    have hc1' : b2.col = first.col + 1 := by
      simp at hc1
      omega
    have hb2row : b2.row = first.row := by
      rw [allSameRow, List.all_eq_true] at hrow
      have := hrow b2 (List.mem_cons.mpr (Or.inr (List.mem_cons_self _ _)))
      simpa [pathHead] using this
    have hb2lay : b2.layer = first.layer := hlay b2 (List.mem_cons_self _ _)
    have hrow2 : allSameRow (b2 :: t) = true := by
      rw [allSameRow, List.all_eq_true]
      intro q hq
      rw [allSameRow, List.all_eq_true] at hrow
      have hq1 := hrow q (List.mem_cons.mpr (Or.inr hq))
      simp [pathHead] at hq1 ⊢
      rw [hq1, ← hb2row]
    have hlay2 : ∀ q ∈ t, q.layer = b2.layer := by
      intro q hq
      rw [hb2lay]
      exact hlay q (List.mem_cons.mpr (Or.inr hq))
    have ht := ih b2 hc2 hrow2 hlay2
    show b2 :: t = (⟨first.row + 0, first.col + 1, first.layer⟩ : Position) ::
      walkCells (first.row + 0) (first.col + 1) 0 1 first.layer t.length
    congr 1
    · obtain ⟨br, bc, bl⟩ := b2
      simp only [Position.mk.injEq]
      refine ⟨?_, hc1', hb2lay⟩
      have hbr : br = first.row := hb2row
      omega
    · conv_lhs => rw [ht]
      rw [hb2row, hc1', hb2lay, add_zero]

/-- A row-contiguous one-column path of constant layer is exactly the
walk's spine below its head. -/
theorem spine_of_contiguous_row :
    ∀ (rest : List Position) (first : Position),
      contiguousBy (fun q => q.row) (first :: rest) = true →
      allSameCol (first :: rest) = true →
      (∀ pos ∈ rest, pos.layer = first.layer) →
      rest = walkCells first.row first.col 1 0 first.layer rest.length := by
  intro rest
  induction rest with
  | nil =>
    intro first _ _ _
    rfl
  | cons b2 t ih =>
    intro first hcont hcol hlay
    rw [contiguousBy, Bool.and_eq_true] at hcont
    obtain ⟨hc1, hc2⟩ := hcont
    have hc1' : b2.row = first.row + 1 := by
      simp at hc1
      omega
    have hb2col : b2.col = first.col := by
      rw [allSameCol, List.all_eq_true] at hcol
      have := hcol b2 (List.mem_cons.mpr (Or.inr (List.mem_cons_self _ _)))
      simpa [pathHead] using this
    have hb2lay : b2.layer = first.layer := hlay b2 (List.mem_cons_self _ _)
    have hcol2 : allSameCol (b2 :: t) = true := by
      rw [allSameCol, List.all_eq_true]
      intro q hq
      rw [allSameCol, List.all_eq_true] at hcol
      have hq1 := hcol q (List.mem_cons.mpr (Or.inr hq))
      simp [pathHead] at hq1 ⊢
      rw [hq1, ← hb2col]
    have hlay2 : ∀ q ∈ t, q.layer = b2.layer := by
      intro q hq
      rw [hb2lay]
      exact hlay q (List.mem_cons.mpr (Or.inr hq))
    have ht := ih b2 hc2 hcol2 hlay2
    show b2 :: t = (⟨first.row + 1, first.col + 0, first.layer⟩ : Position) ::
      walkCells (first.row + 1) (first.col + 0) 1 0 first.layer t.length
    congr 1
    · obtain ⟨br, bc, bl⟩ := b2
      simp only [Position.mk.injEq]
      refine ⟨hc1', ?_, hb2lay⟩
      have hbc : bc = first.col := hb2col
      omega
    · conv_lhs => rw [ht]
      rw [hb2col, hc1', hb2lay, add_zero]

end WataruTo

namespace WataruTo

/-- Soundness of the enumeration: every generated move belongs to the
stated player and passes the `MoveValidator`. -/
theorem gen_sound {b : Board} {b1 bN : PlayerBlocks} {p : Int} {m0 : Move}
    (hmem : m0 ∈ legalMovesGen b p (blocksFor b1 bN p)) :
    m0.player = p ∧ MoveValidator.is_valid_move m0 b b1 bN = true := by
  obtain ⟨rn, hrn, cn, hcn, hgen⟩ := (legalMovesGen_mem_iff b p _ m0).mp hmem
  obtain ⟨hl2s, sl, hslc, dr, dc, hd, hwalk⟩ :=
    (genFrom_mem_iff b p _ (rn : Int) (cn : Int) m0).mp hgen
  have hsl : sl = 0 ∨ sl = 1 := by
    rcases hslc with ⟨h, -⟩ | ⟨h, -⟩
    · exact Or.inl h
    · exact Or.inr h
  obtain ⟨k, hk1, hk4, hstep, hlen3, hend, hhb, hpv, hm⟩ :=
    (walkExt_mem_iff b p sl hsl (blocksFor b1 bN p) dr dc 4 (rn : Int) (cn : Int)
      [⟨(rn : Int), (cn : Int), sl⟩] m0).mp hwalk
  subst hm
  simp only [List.singleton_append]
  simp only [List.length_singleton] at hlen3 hhb
  have hk2 : 2 ≤ k := by omega
  have hhb' : (blocksFor b1 bN p).has_block (k + 1) = true := by
    rwa [Nat.add_comm] at hhb
  have hbounds : (0 : Int) ≤ (rn : Int) ∧ (rn : Int) < (b.size : Int) ∧
      (0 : Int) ≤ (cn : Int) ∧ (cn : Int) < (b.size : Int) := by
    refine ⟨Int.ofNat_nonneg rn, ?_, Int.ofNat_nonneg cn, ?_⟩
    · exact_mod_cast hrn
    · exact_mod_cast hcn
  have hshape : sortedPath ((⟨(rn : Int), (cn : Int), sl⟩ : Position) ::
        walkCells (rn : Int) (cn : Int) dr dc sl k) =
      (⟨(rn : Int), (cn : Int), sl⟩ : Position) ::
        walkCells (rn : Int) (cn : Int) dr dc sl k ∧
      (Move.mk p ((⟨(rn : Int), (cn : Int), sl⟩ : Position) ::
        walkCells (rn : Int) (cn : Int) dr dc sl k)).validate_path = true := by
    rcases hd with ⟨rfl, rfl⟩ | ⟨rfl, rfl⟩
    · have hcont := contiguousBy_spine_col sl k (rn : Int) (cn : Int)
      have hrowT := allSameRow_spine_col sl k (rn : Int) (cn : Int)
      have hnd := nodup_of_contiguous (fun q => q.col) _ hcont
      have hsorted := pySortBy_eq_self (fun q => q.col) _ (chain_le_of_contiguous _ _ hcont)
      have hsp : sortedPath ((⟨(rn : Int), (cn : Int), sl⟩ : Position) ::
          walkCells (rn : Int) (cn : Int) 0 1 sl k) =
          (⟨(rn : Int), (cn : Int), sl⟩ : Position) ::
            walkCells (rn : Int) (cn : Int) 0 1 sl k := by
        rw [sortedPath, if_pos hrowT]
        exact hsorted
      refine ⟨hsp, ?_⟩
      have hlenL : ((⟨(rn : Int), (cn : Int), sl⟩ : Position) ::
          walkCells (rn : Int) (cn : Int) 0 1 sl k).length = k + 1 := by
        simp [walkCells_length]
      simp only [Move.validate_path]
      rw [if_neg (by rw [hlenL]; omega), if_neg (by simp [hrowT]),
        if_neg (not_not_intro hnd), if_pos hrowT, hsorted]
      exact hcont
    · have hcont := contiguousBy_spine_row sl k (rn : Int) (cn : Int)
      have hcolT := allSameCol_spine_row sl k (rn : Int) (cn : Int)
      have hrowF := allSameRow_spine_row sl k (rn : Int) (cn : Int) (by omega)
      have hnd := nodup_of_contiguous (fun q => q.row) _ hcont
      have hsorted := pySortBy_eq_self (fun q => q.row) _ (chain_le_of_contiguous _ _ hcont)
      have hsp : sortedPath ((⟨(rn : Int), (cn : Int), sl⟩ : Position) ::
          walkCells (rn : Int) (cn : Int) 1 0 sl k) =
          (⟨(rn : Int), (cn : Int), sl⟩ : Position) ::
            walkCells (rn : Int) (cn : Int) 1 0 sl k := by
        rw [sortedPath, if_neg (by simp [hrowF])]
        exact hsorted
      refine ⟨hsp, ?_⟩
      have hlenL : ((⟨(rn : Int), (cn : Int), sl⟩ : Position) ::
          walkCells (rn : Int) (cn : Int) 1 0 sl k).length = k + 1 := by
        simp [walkCells_length]
      simp only [Move.validate_path]
      rw [if_neg (by rw [hlenL]; omega), if_neg (by simp [hcolT]),
        if_neg (not_not_intro hnd), if_neg (by simp [hrowF]), hsorted]
      exact hcont
  obtain ⟨hsp, hvp⟩ := hshape
  have hfirstcc : cellCheck b p sl true (⟨(rn : Int), (cn : Int), sl⟩ : Position) = true := by
    rcases hslc with ⟨h0, hc1⟩ | ⟨h1, hc1⟩
    · subst h0
      exact cellCheck_base_first hbounds hl2s hc1
    · subst h1
      exact cellCheck_bridge_first hbounds hl2s hc1
  have hrestcc : ∀ pos ∈ walkCells (rn : Int) (cn : Int) dr dc sl k,
      cellCheck b p sl false pos = true := by
    intro pos hpos
    have hso := stepOK_elim (hstep pos hpos)
    obtain ⟨i, hi1, hik, rfl⟩ := (mem_walkCells dr dc sl k (rn : Int) (cn : Int) pos).mp hpos
    rcases hsl with rfl | rfl
    · exact cellCheck_base_rest hso.1 hso.2.1 (hso.2.2.1 rfl)
    · exact cellCheck_bridge_rest hso.1 hso.2.1 (hso.2.2.2 one_ne_zero)
  have hmatch : ∀ first rest,
      sortedPath (Move.mk p ((⟨(rn : Int), (cn : Int), sl⟩ : Position) ::
        walkCells (rn : Int) (cn : Int) dr dc sl k)).path = first :: rest →
      cellCheck b p first.layer true first = true ∧
      ∀ pos ∈ rest, cellCheck b p first.layer false pos = true := by
    intro first rest heq
    have heq' : (⟨(rn : Int), (cn : Int), sl⟩ : Position) ::
        walkCells (rn : Int) (cn : Int) dr dc sl k = first :: rest := by
      rw [← hsp]
      exact heq
    injection heq' with h1 h2
    subst h1
    subst h2
    exact ⟨hfirstcc, hrestcc⟩
  have hendcc : (Move.mk p ((⟨(rn : Int), (cn : Int), sl⟩ : Position) ::
        walkCells (rn : Int) (cn : Int) dr dc sl k)).is_bridge_mode = true →
      (b.get_cell (Move.mk p ((⟨(rn : Int), (cn : Int), sl⟩ : Position) ::
          walkCells (rn : Int) (cn : Int) dr dc sl k)).end_position.row
        (Move.mk p ((⟨(rn : Int), (cn : Int), sl⟩ : Position) ::
          walkCells (rn : Int) (cn : Int) dr dc sl k)).end_position.col).1 =
      (Move.mk p ((⟨(rn : Int), (cn : Int), sl⟩ : Position) ::
        walkCells (rn : Int) (cn : Int) dr dc sl k)).player := by
    intro hbm
    have hsl1 : sl = 1 := by
      simpa [Move.is_bridge_mode] using hbm
    subst hsl1
    obtain ⟨k0, rfl⟩ : ∃ k0, k = k0 + 1 := ⟨k - 1, by omega⟩
    have hE : (Move.mk p ((⟨(rn : Int), (cn : Int), (1 : Int)⟩ : Position) ::
        walkCells (rn : Int) (cn : Int) dr dc 1 (k0 + 1))).end_position =
        ⟨(rn : Int) + ((k0 : Int) + 1) * dr, (cn : Int) + ((k0 : Int) + 1) * dc, 1⟩ := by
      show ((⟨(rn : Int), (cn : Int), (1 : Int)⟩ : Position) ::
        walkCells (rn : Int) (cn : Int) dr dc 1 (k0 + 1)).getLastD ⟨0, 0, 0⟩ = _
      rw [List.getLastD_cons]
      exact walkCells_getLastD dr dc 1 k0 (rn : Int) (cn : Int) _
    rw [hE]
    have hend' := hend rfl
    rw [show ((k0 + 1 : Nat) : Int) = (k0 : Int) + 1 from by push_cast; ring] at hend'
    exact hend'
  have h4 : (Move.mk p ((⟨(rn : Int), (cn : Int), sl⟩ : Position) ::
        walkCells (rn : Int) (cn : Int) dr dc sl k)).block_size = 4 →
      0 < (blocksFor b1 bN p).size4 := by
    intro hbs
    have hkk : k + 1 = 4 := by
      simpa [Move.block_size, walkCells_length] using hbs
    rw [hkk] at hhb'
    simpa [PlayerBlocks.has_block] using hhb'
  have h5 : (Move.mk p ((⟨(rn : Int), (cn : Int), sl⟩ : Position) ::
        walkCells (rn : Int) (cn : Int) dr dc sl k)).block_size = 5 →
      0 < (blocksFor b1 bN p).size5 := by
    intro hbs
    have hkk : k + 1 = 5 := by
      simpa [Move.block_size, walkCells_length] using hbs
    rw [hkk] at hhb'
    simpa [PlayerBlocks.has_block] using hhb'
  exact ⟨trivial, validator_intro hvp h4 h5 hmatch hendcc⟩

end WataruTo

namespace WataruTo

/-- Completeness of the enumeration: an ascending-path move of layers
0/1 accepted by the `MoveValidator` is produced by the generator. -/
theorem gen_complete {b : Board} {b1 bN : PlayerBlocks} {m : Move}
    (hval : MoveValidator.is_valid_move m b b1 bN = true)
    (hpm : m.player = 1 ∨ m.player = -1)
    (hl : ∀ pos ∈ m.path, pos.layer = 0 ∨ pos.layer = 1)
    (hasc : sortedPath m.path = m.path) :
    m ∈ legalMovesGen b m.player (blocksFor b1 bN m.player) := by
  have hvp := validator_validate_path hval
  obtain ⟨hlen35, hdirs⟩ := validate_path_elim hvp
  obtain ⟨hl3, hl5⟩ := hlen35
  obtain ⟨first, rest, heq0, hfirst, hrest⟩ := validator_sorted_cons hval
  have heq : m.path = first :: rest := by
    rw [← hasc]
    exact heq0
  have hL : m.path.length = rest.length + 1 := by
    rw [heq]
    rfl
  have hsl01 : first.layer = 0 ∨ first.layer = 1 := by
    refine hl first ?_
    rw [heq]
    exact List.mem_cons_self _ _
  have hlayrest : ∀ pos ∈ rest, pos.layer = first.layer := by
    intro pos hpos
    rcases hsl01 with h0 | h1
    · rw [h0]
      have hc := hrest pos hpos
      rw [h0] at hc
      exact (cellCheck_rest_mode0 hc).1
    · rw [h1]
      have hfl : first.layer ≠ 0 := by rw [h1]; exact one_ne_zero
      exact (cellCheck_rest_mode1 (hrest pos hpos) hfl).1
  obtain ⟨hbr0, hbr1, hbc0, hbc1⟩ := cellCheck_bounds hfirst
  have hstepAll : ∀ pos ∈ rest, stepOK b m.player first.layer pos = true := by
    intro pos hpos
    have hc := hrest pos hpos
    refine stepOK_intro (cellCheck_bounds hc) (cellCheck_l2 hc) ?_
    rcases hsl01 with h0 | h1
    · rw [if_pos h0]
      rw [h0] at hc
      exact (cellCheck_rest_mode0 hc).2
    · rw [if_neg (by rw [h1]; exact one_ne_zero)]
      have hfl : first.layer ≠ 0 := by rw [h1]; exact one_ne_zero
      exact ((cellCheck_rest_mode1 hc hfl).2).symm
  have hhbL : (blocksFor b1 bN m.player).has_block m.path.length = true := by
    by_cases h3 : m.path.length = 3
    · simp [PlayerBlocks.has_block, h3]
    · by_cases h4 : m.path.length = 4
      · have hs := validator_size4 hval h4
        simp [PlayerBlocks.has_block, h4, hs]
      · have h5 : m.path.length = 5 := by omega
        have hs := validator_size5 hval h5
        simp [PlayerBlocks.has_block, h5, hs]
  have hr : ((first.row.toNat : Nat) : Int) = first.row := Int.toNat_of_nonneg hbr0
  have hc : ((first.col.toNat : Nat) : Int) = first.col := Int.toNat_of_nonneg hbc0
  rcases hdirs with ⟨hrowT, hcontS⟩ | ⟨hrowF, hcolT, hcontS⟩
  · -- the path lies in one row: the generator's rightward walk
    have hsortEq : sortedPath m.path = pySortBy (fun q => q.col) m.path := by
      rw [sortedPath, if_pos hrowT]
    have hcont : contiguousBy (fun q => q.col) m.path = true := by
      rw [← hsortEq, hasc] at hcontS
      exact hcontS
    rw [heq] at hcont
    have hrowT' : allSameRow (first :: rest) = true := by
      rw [← heq]
      exact hrowT
    have hshape := spine_of_contiguous_col rest first hcont hrowT' hlayrest
    rw [legalMovesGen_mem_iff]
    refine ⟨first.row.toNat, by omega, first.col.toNat, by omega, ?_⟩
    rw [genFrom_mem_iff, hr, hc]
    refine ⟨cellCheck_l2 hfirst, first.layer, ?_, 0, 1, Or.inl ⟨rfl, rfl⟩, ?_⟩
    · rcases hsl01 with h0 | h1
      · exact Or.inl ⟨h0, cellCheck_first_layer0 hfirst h0⟩
      · exact Or.inr ⟨h1, cellCheck_first_layer1 hfirst h1⟩
    · refine (walkExt_mem_iff b m.player first.layer hsl01 (blocksFor b1 bN m.player)
        0 1 4 first.row first.col [⟨first.row, first.col, first.layer⟩] m).mpr ?_
      refine ⟨rest.length, by omega, by omega, ?_, ?_, ?_, ?_, hpm, ?_⟩
      · intro pos hpos
        rw [← hshape] at hpos
        exact hstepAll pos hpos
      · simp only [List.length_singleton]
        omega
      · intro h1
        have hbm : m.is_bridge_mode = true := by
          simp [Move.is_bridge_mode, heq, h1]
        have hendv := validator_bridge_end hval hbm
        obtain ⟨k0, hk0⟩ : ∃ k0, rest.length = k0 + 1 := ⟨rest.length - 1, by omega⟩
        have hEP : m.end_position = ⟨first.row + ((k0 : Int) + 1) * 0,
            first.col + ((k0 : Int) + 1) * 1, first.layer⟩ := by
          show m.path.getLastD ⟨0, 0, 0⟩ = _
          rw [heq, List.getLastD_cons]
          conv_lhs => rw [hshape, hk0]
          exact walkCells_getLastD 0 1 first.layer k0 first.row first.col first
        rw [hEP] at hendv
        rw [hk0, show ((k0 + 1 : Nat) : Int) = (k0 : Int) + 1 from by push_cast; ring]
        exact hendv
      · have hlen1 : ([(⟨first.row, first.col, first.layer⟩ : Position)] :
            List Position).length + rest.length = m.path.length := by
          simp only [List.length_singleton]
          omega
        rw [hlen1]
        exact hhbL
      · rw [List.singleton_append]
        refine Move.eq_of m _ ?_
        rw [heq]
        conv_lhs => rw [hshape]
  · -- the path lies in one column: the generator's downward walk
    have hsortEq : sortedPath m.path = pySortBy (fun q => q.row) m.path := by
      rw [sortedPath, if_neg (by simp [hrowF])]
    have hcont : contiguousBy (fun q => q.row) m.path = true := by
      rw [← hsortEq, hasc] at hcontS
      exact hcontS
    rw [heq] at hcont
    have hcolT' : allSameCol (first :: rest) = true := by
      rw [← heq]
      exact hcolT
    have hshape := spine_of_contiguous_row rest first hcont hcolT' hlayrest
    rw [legalMovesGen_mem_iff]
    refine ⟨first.row.toNat, by omega, first.col.toNat, by omega, ?_⟩
    rw [genFrom_mem_iff, hr, hc]
    refine ⟨cellCheck_l2 hfirst, first.layer, ?_, 1, 0, Or.inr ⟨rfl, rfl⟩, ?_⟩
    · rcases hsl01 with h0 | h1
      · exact Or.inl ⟨h0, cellCheck_first_layer0 hfirst h0⟩
      · exact Or.inr ⟨h1, cellCheck_first_layer1 hfirst h1⟩
    · refine (walkExt_mem_iff b m.player first.layer hsl01 (blocksFor b1 bN m.player)
        1 0 4 first.row first.col [⟨first.row, first.col, first.layer⟩] m).mpr ?_
      refine ⟨rest.length, by omega, by omega, ?_, ?_, ?_, ?_, hpm, ?_⟩
      · intro pos hpos
        rw [← hshape] at hpos
        exact hstepAll pos hpos
      · simp only [List.length_singleton]
        omega
      · intro h1
        have hbm : m.is_bridge_mode = true := by
          simp [Move.is_bridge_mode, heq, h1]
        have hendv := validator_bridge_end hval hbm
        obtain ⟨k0, hk0⟩ : ∃ k0, rest.length = k0 + 1 := ⟨rest.length - 1, by omega⟩
        have hEP : m.end_position = ⟨first.row + ((k0 : Int) + 1) * 1,
            first.col + ((k0 : Int) + 1) * 0, first.layer⟩ := by
          show m.path.getLastD ⟨0, 0, 0⟩ = _
          rw [heq, List.getLastD_cons]
          conv_lhs => rw [hshape, hk0]
          exact walkCells_getLastD 1 0 first.layer k0 first.row first.col first
        rw [hEP] at hendv
        rw [hk0, show ((k0 + 1 : Nat) : Int) = (k0 : Int) + 1 from by push_cast; ring]
        exact hendv
      · have hlen1 : ([(⟨first.row, first.col, first.layer⟩ : Position)] :
            List Position).length + rest.length = m.path.length := by
          simp only [List.length_singleton]
          omega
        rw [hlen1]
        exact hhbL
      · rw [List.singleton_append]
        refine Move.eq_of m _ ?_
        rw [heq]
        conv_lhs => rw [hshape]

end WataruTo

namespace WataruTo

/-- C2: for a move of the current player whose positions use layers 0/1
and whose path is listed in ascending board order, `is_valid_move`
accepts it exactly when `get_legal_moves` (computed on a cold cache)
lists it.  Descending bridge paths break the equivalence (see the
counterexample): there the validator's end check reads the unsorted
path's last cell while the generator only emits ascending paths. -/
theorem legality_iff_enumeration_ascending {g : GameState} {m : Move}
    (hcache : g.cache_valid = false)
    (hp : m.player = g.current_player)
    (hpm : m.player = 1 ∨ m.player = -1)
    (hl : ∀ pos ∈ m.path, pos.layer = 0 ∨ pos.layer = 1)
    (hasc : sortedPath m.path = m.path) :
    g.is_valid_move m = true ↔ m ∈ (g.get_legal_moves).1 := by
  rw [get_legal_moves_calc hcache]
  constructor
  · intro hv
    have hw := is_valid_move_winner hv
    have hval := is_valid_move_validator hv
    unfold GameState.legalMovesCalc
    rw [if_neg (by simp [hw])]
    have hmm := gen_complete hval hpm hl hasc
    rw [hp] at hmm
    exact hmm
  · intro hm
    unfold GameState.legalMovesCalc at hm
    by_cases hw : g.winner = none
    · rw [if_neg (by simp [hw])] at hm
      have hgs := gen_sound (show m ∈ legalMovesGen g.board g.current_player
        (blocksFor g.blocks1 g.blocksN g.current_player) from hm)
      obtain ⟨hply, hval⟩ := hgs
      unfold GameState.is_valid_move
      rw [if_neg (by simp [hw]), if_neg (by simp [hp])]
      exact hval
    · rw [if_pos hw] at hm
      exact absurd hm (List.not_mem_nil m)

theorem legality_iff_enumeration_ascending_witness :
    (GameState.init 3).cache_valid = false ∧
    (Move.mk 1 [⟨0, 0, 0⟩, ⟨0, 1, 0⟩, ⟨0, 2, 0⟩]).player = (GameState.init 3).current_player ∧
    ((Move.mk 1 [⟨0, 0, 0⟩, ⟨0, 1, 0⟩, ⟨0, 2, 0⟩]).player = 1 ∨
      (Move.mk 1 [⟨0, 0, 0⟩, ⟨0, 1, 0⟩, ⟨0, 2, 0⟩]).player = -1) ∧
    (∀ pos ∈ (Move.mk 1 [⟨0, 0, 0⟩, ⟨0, 1, 0⟩, ⟨0, 2, 0⟩]).path,
      pos.layer = 0 ∨ pos.layer = 1) ∧
    sortedPath (Move.mk 1 [⟨0, 0, 0⟩, ⟨0, 1, 0⟩, ⟨0, 2, 0⟩]).path =
      (Move.mk 1 [⟨0, 0, 0⟩, ⟨0, 1, 0⟩, ⟨0, 2, 0⟩]).path ∧
    ((GameState.init 3).is_valid_move (Move.mk 1 [⟨0, 0, 0⟩, ⟨0, 1, 0⟩, ⟨0, 2, 0⟩]) = true ↔
      Move.mk 1 [⟨0, 0, 0⟩, ⟨0, 1, 0⟩, ⟨0, 2, 0⟩] ∈ ((GameState.init 3).get_legal_moves).1) :=
  ⟨rfl, rfl, Or.inl rfl, by decide, by decide,
    legality_iff_enumeration_ascending rfl rfl (Or.inl rfl) (by decide) (by decide)⟩

end WataruTo
